import Mathlib

/-!
Shallow embedding of the SQL Extraction & Security Validation Gateway
(`app/backend/sql_parser.py`) of the Natural-Language-to-SQL-Converter
repository.  Strings are modelled as `List Char`; each Python helper is
translated into an executable Lean function of the same name (underscores
kept, leading underscore dropped where Lean requires it).
-/

namespace SqlGateway

/-- ASCII whitespace, modelling Python's `\s` character class and the
default `str.strip` on the ASCII inputs this gateway handles. -/
def isSpace (c : Char) : Bool :=
  c = ' ' || c = '\t' || c = '\n' || c = '\r' || c = '\x0b' || c = '\x0c'

/-- `findClose l` scans for the first occurrence of the two-character
closer `*/` and returns the remainder after it (the lazy `.*?\*/` of the
block-comment regex), or `none` when no closer exists. -/
def findClose : List Char → Option (List Char)
  | [] => none
  | '*' :: '/' :: rest => some rest
  | _ :: rest => findClose rest

theorem findClose_length : ∀ l r, findClose l = some r → r.length < l.length := by
  intro l
  induction l using findClose.induct with
  | case1 => intro r h; simp [findClose] at h
  | case2 rest => intro r h; simp [findClose] at h; subst h; simp; omega
  | case3 c rest hne ih =>
    intro r h
    rw [findClose] at h
    · exact Nat.lt_trans (ih r h) (by simp)
    · exact hne

/-- `re.sub(r"/\*.*?\*/", " ", s, flags=re.DOTALL)`: each leftmost
`/*`-to-nearest-`*/` span becomes a single space; an unclosed `/*` is left
in place (the regex finds no match there). -/
def removeBlockComments : List Char → List Char
  | [] => []
  | '/' :: '*' :: rest =>
    match h : findClose rest with
    | some rest2 => ' ' :: removeBlockComments rest2
    | none => '/' :: removeBlockComments ('*' :: rest)
  | c :: rest => c :: removeBlockComments rest
termination_by l => l.length
decreasing_by
  · simp_wf
    have := findClose_length rest rest2 h
    omega
  · simp_wf
  · simp_wf

/-- Error kinds of the gateway, one per distinct `raise` site of
`sql_parser.py` (§7 of the specification groups the last two as
`InvalidBacktick`). -/
inductive ErrKind where
  /-- «No valid SQL statement found» (candidate extractor). -/
  | noStatementFound : ErrKind
  /-- «No valid SELECT statement found» (termination resolver fallthrough). -/
  | noSelectStatement : ErrKind
  /-- «Blocked SQL operation detected: …» carrying the regex source text. -/
  | blockedOperation (patternSource : String) : ErrKind
  /-- «Invalid backticks in SQL» (statement starts or ends with a backtick). -/
  | invalidBacktickEdge : ErrKind
  /-- «Unquoted backticks detected» (bare backtick in the statement body). -/
  | invalidBacktickBody : ErrKind
deriving DecidableEq

/-- Diagnostic wrapper built by `_create_error_context`: the failure kind
plus whichever intermediate stage outputs were produced («N/A» otherwise). -/
structure GatewayError where
  kind : ErrKind
  originalInput : List Char
  cleanedText : List Char
  extractedSql : List Char
deriving DecidableEq

/-- Marker used by `extract_sql` for a stage output that was never produced. -/
def NA : List Char := ['N', '/', 'A']

/-- Scan to the first newline, keeping it: the text Python's `--.*$`
(MULTILINE, no DOTALL) leaves untouched after a line comment. -/
def skipToEol : List Char → List Char
  | [] => []
  | '\n' :: rest => '\n' :: rest
  | _ :: rest => skipToEol rest

theorem skipToEol_length_le : ∀ l : List Char, (skipToEol l).length ≤ l.length := by
  intro l
  induction l using skipToEol.induct with
  | case1 => simp [skipToEol]
  | case2 rest => simp [skipToEol]
  | case3 c rest hne ih =>
    rw [skipToEol]
    · exact Nat.le_trans ih (by simp)
    · exact hne

/-- Model of `re.sub(r"--.*$", " ", s, flags=re.MULTILINE)`: each `--` and
the rest of its line collapse to one space; the newline survives. -/
def removeLineComments : List Char → List Char
  | [] => []
  | '-' :: '-' :: rest => ' ' :: removeLineComments (skipToEol rest)
  | c :: rest => c :: removeLineComments rest
termination_by l => l.length
decreasing_by
  · have := skipToEol_length_le rest
    simp_wf
    omega
  · simp_wf

/-- Drop the trailing run of backticks. -/
def dropTrailingBackticks (l : List Char) : List Char :=
  (l.reverse.dropWhile (· = '`')).reverse

/-- Model of `re.sub(r"(^`+)|(`+$)", "", s)`: the leading backtick run is
removed, and so is a trailing backtick run — where Python's `$` (without
MULTILINE) also matches just before a final newline. -/
def stripFenceBackticks (l : List Char) : List Char :=
  let l1 := l.dropWhile (· = '`')
  match l1.getLast? with
  | some '`' => dropTrailingBackticks l1
  | some '\n' =>
    if l1.dropLast.getLast? = some '`' then
      dropTrailingBackticks l1.dropLast ++ ['\n']
    else l1
  | _ => l1

/-- Model of `re.sub(r"\s+", " ", s)`: every whitespace run becomes one
space. -/
def collapseWs : List Char → List Char
  | [] => []
  | [c] => if isSpace c then [' '] else [c]
  | c1 :: c2 :: rest =>
    if isSpace c1 && isSpace c2 then collapseWs (c2 :: rest)
    else (if isSpace c1 then ' ' else c1) :: collapseWs (c2 :: rest)

/-- Python `str.rstrip()` on the modelled whitespace set. -/
def rstrip (l : List Char) : List Char :=
  (l.reverse.dropWhile isSpace).reverse

/-- Python `str.strip()` on the modelled whitespace set. -/
def strip (l : List Char) : List Char :=
  rstrip (l.dropWhile isSpace)

/-- Embedding of `_clean_input_text`: comments out, fence backticks off the
extreme ends, whitespace collapsed and trimmed. -/
def clean_input_text (l : List Char) : List Char :=
  strip (collapseWs (stripFenceBackticks (removeLineComments (removeBlockComments l))))

/-- Word characters of the regex `\b` boundary (ASCII `\w`). -/
def isWordChar (c : Char) : Bool :=
  c.isAlpha || c.isDigit || c = '_'

/-- Case-insensitive `List.isPrefixOf`-style test: the first argument is a
lowercase keyword, compared against the lowered text. -/
def startsWithCI : List Char → List Char → Bool
  | [], _ => true
  | _ :: _, [] => false
  | p :: ps, c :: cs => p = c.toLower && startsWithCI ps cs

/-- Word boundary between a matched keyword and the following text. -/
def boundaryAfter : List Char → Bool
  | [] => true
  | c :: _ => !isWordChar c

/-- Word boundary before the current scan position (`none` = start of
the string). Keywords start with word characters, so `\b` holds exactly
when the previous character is absent or a non-word character. -/
def prevBoundary : Option Char → Bool
  | none => true
  | some c => !isWordChar c

/-- Match of `\bSELECT\b` (IGNORECASE) at the current position, `prev`
being the character just before it. -/
def selectAt (prev : Option Char) (l : List Char) : Bool :=
  prevBoundary prev && startsWithCI ['s', 'e', 'l', 'e', 'c', 't'] l &&
    boundaryAfter (l.drop 6)

/-- True when `\bSELECT\b` matches somewhere in `l` (`prev` = character
before `l`). -/
def hasBoundedSelect : Option Char → List Char → Bool
  | _, [] => false
  | prev, c :: rest => selectAt prev (c :: rest) || hasBoundedSelect (some c) rest

/-- Match of the CTE branch `WITH\s+.*?\bSELECT\b` at the current
position: literal `WITH` (IGNORECASE, no word boundary before it), one
whitespace character, then a bounded `SELECT` strictly later. -/
def cteAt (l : List Char) : Bool :=
  startsWithCI ['w', 'i', 't', 'h'] l &&
    match l.drop 4 with
    | [] => false
    | c :: rest => isSpace c && hasBoundedSelect (some c) rest

/-- Match of `(?:(WITH\s+.*?\bSELECT\b)|\bSELECT\b)` at the current
position (the trailing `.*` of the pattern always succeeds). -/
def matchAt (prev : Option Char) (l : List Char) : Bool :=
  cteAt l || selectAt prev l

/-- Leftmost-match search of `re.search`: the first suffix of `l` at whose
head the pattern matches. -/
def searchFrom : Option Char → List Char → Option (List Char)
  | _, [] => none
  | prev, c :: rest =>
    if matchAt prev (c :: rest) then some (c :: rest)
    else searchFrom (some c) rest

/-- Embedding of `_extract_sql_candidate`: `match.group(0)` runs from the
leftmost match to the end of the cleaned text (`.*` with DOTALL), then is
stripped; no match raises «No valid SQL statement found». -/
def extract_sql_candidate (cleaned_text : List Char) : Except ErrKind (List Char) :=
  match searchFrom none cleaned_text with
  | some suffixText => .ok (strip suffixText)
  | none => .error .noStatementFound

/-- Split at the first semicolon: the groups of `^(.*?)(;|\Z)` with
DOTALL — everything before the first `;` (or the whole string), and the
matched `;` (or nothing). -/
def splitFirstSemi : List Char → List Char × List Char
  | [] => ([], [])
  | ';' :: _ => ([], [';'])
  | c :: rest =>
    let p := splitFirstSemi rest
    (c :: p.1, p.2)

/-- The semicolon termination rule `^(.*?)(;|\Z)`: its `\Z` alternative
makes it total, so it matches every candidate. -/
def semicolonMatch (l : List Char) : Option (List Char × List Char) :=
  some (splitFirstSemi l)

/-- Clause-boundary keyword alternatives of the `termination` pattern,
each a leading keyword plus an optional second keyword after `\s+`. -/
def clauseAlternatives : List (List Char × List Char) :=
  [ (['u', 'n', 'i', 'o', 'n'], ['a', 'l', 'l']),
    (['u', 'n', 'i', 'o', 'n'], []),
    (['e', 'x', 'c', 'e', 'p', 't'], []),
    (['i', 'n', 't', 'e', 'r', 's', 'e', 'c', 't'], []),
    (['l', 'i', 'm', 'i', 't'], []),
    (['o', 'f', 'f', 's', 'e', 't'], []),
    (['f', 'e', 't', 'c', 'h'], []),
    (['f', 'o', 'r'], []),
    (['o', 'r', 'd', 'e', 'r'], ['b', 'y']),
    (['g', 'r', 'o', 'u', 'p'], ['b', 'y']),
    (['h', 'a', 'v', 'i', 'n', 'g'], []),
    (['w', 'i', 'n', 'd', 'o', 'w'], []) ]

/-- Match of `KW2` after `\s+` at the current position; an empty `kw2`
reduces the pattern to a plain `\s+` requirement. -/
def wsPlusThen (kw2 : List Char) : List Char → Bool
  | [] => false
  | c :: rest => isSpace c && startsWithCI kw2 (rest.dropWhile isSpace)

/-- Match of one clause alternative (with the trailing `\b` of the
lookahead group) at the current position. -/
def clauseAltAt (p : List Char × List Char) (l : List Char) : Bool :=
  if p.2.isEmpty then
    startsWithCI p.1 l && boundaryAfter (l.drop p.1.length)
  else
    startsWithCI p.1 l &&
      match l.drop p.1.length with
      | [] => false
      | c :: rest =>
        isSpace c &&
          startsWithCI p.2 (rest.dropWhile isSpace) &&
          boundaryAfter ((rest.dropWhile isSpace).drop p.2.length)

/-- Match of the clause lookahead `\b(?:UNION\s+ALL|…|WINDOW)\b` at the
current position. -/
def clauseAt (prev : Option Char) (l : List Char) : Bool :=
  prevBoundary prev && clauseAlternatives.any (fun p => clauseAltAt p l)

/-- Search of `^(.*?)(?=\b(?:…)\b)`: group 1 up to the leftmost position
where the clause lookahead holds, `none` when it never does. -/
def terminationSearch : Option Char → List Char → Option (List Char)
  | _, [] => none
  | prev, c :: rest =>
    if clauseAt prev (c :: rest) then some []
    else (terminationSearch (some c) rest).map (c :: ·)

/-- The `termination` pattern of `TERMINATION_PATTERNS` applied with
`.match` (anchored at the start). -/
def terminationMatch (l : List Char) : Option (List Char) :=
  terminationSearch none l

/-- Embedding of `_process_termination_pattern`: the first pattern of
`TERMINATION_PATTERNS` that matches wins; its group 1 is stripped, the
matched terminator re-attached, and a final `;` guaranteed.  The
fallthrough raises «No valid SELECT statement found». -/
def process_termination_pattern (extracted_sql : List Char) : Except ErrKind (List Char) :=
  match semicolonMatch extracted_sql with
  | some (g1, g2) =>
    let sql_candidate := strip g1
    let terminated := rstrip (sql_candidate ++ g2)
    if terminated.getLast? = some ';' then .ok terminated
    else .ok (terminated ++ [';'])
  | none =>
    match terminationMatch extracted_sql with
    | some g1 => .ok (strip g1 ++ [';'])
    | none => .error .noSelectStatement

/-- Scan to just after the first occurrence of the closing quote `q`. -/
def findQuote (q : Char) : List Char → Option (List Char)
  | [] => none
  | c :: rest => if c = q then some rest else findQuote q rest

theorem findQuote_length : ∀ (q : Char) (l r : List Char),
    findQuote q l = some r → r.length < l.length := by
  intro q l
  induction l with
  | nil => intro r h; simp [findQuote] at h
  | cons c rest ih =>
    intro r h
    rw [findQuote] at h
    by_cases hc : c = q
    · simp [hc] at h; subst h; simp
    · simp [hc] at h
      exact Nat.lt_trans (ih r h) (by simp)

/-- Embedding of `_remove_quoted_content`:
`re.sub(r"('[^']*'|\x22[^\x22]*\x22)", "", sql)` — each closed quoted span
vanishes; an unclosed quote is an ordinary character. -/
def remove_quoted_content : List Char → List Char
  | [] => []
  | '\'' :: rest =>
    match h : findQuote '\'' rest with
    | some r => remove_quoted_content r
    | none => '\'' :: remove_quoted_content rest
  | '"' :: rest =>
    match h : findQuote '"' rest with
    | some r => remove_quoted_content r
    | none => '"' :: remove_quoted_content rest
  | c :: rest => c :: remove_quoted_content rest
termination_by l => l.length
decreasing_by
  · have := findQuote_length '\'' rest r h
    simp_wf
    omega
  · simp_wf
  · have := findQuote_length '"' rest r h
    simp_wf
    omega
  · simp_wf
  · simp_wf

/-- Embedding of `_has_unquoted_backtick`: the scan
`re.finditer(r"\x22[^\x22]*\x22|'[^']*'|`", text)` prefers closed quoted
spans and reports any backtick matched on its own. -/
def has_unquoted_backtick : List Char → Bool
  | [] => false
  | '"' :: rest =>
    match h : findQuote '"' rest with
    | some r => has_unquoted_backtick r
    | none => has_unquoted_backtick rest
  | '\'' :: rest =>
    match h : findQuote '\'' rest with
    | some r => has_unquoted_backtick r
    | none => has_unquoted_backtick rest
  | '`' :: _ => true
  | _ :: rest => has_unquoted_backtick rest
termination_by l => l.length
decreasing_by
  · have := findQuote_length '"' rest r h
    simp_wf
    omega
  · simp_wf
  · have := findQuote_length '\'' rest r h
    simp_wf
    omega
  · simp_wf
  · simp_wf

/-- One entry of `ILLEGAL_OPERATION_PATTERNS`: the Python regex source
text (the payload of the raised error) and its shape
`KW1 \s+ KW2` — `kw2 = []` encodes a trailing-whitespace-only pattern
`KW1\s+`. -/
structure IllegalPattern where
  source : String
  kw1 : List Char
  kw2 : List Char
deriving DecidableEq

/-- The fixed blocklist of `sql_parser.py`, in source order. -/
def ILLEGAL_OPERATION_PATTERNS : List IllegalPattern :=
  [ ⟨"INSERT\\s+INTO", ['i', 'n', 's', 'e', 'r', 't'], ['i', 'n', 't', 'o']⟩,
    ⟨"UPDATE\\s+", ['u', 'p', 'd', 'a', 't', 'e'], []⟩,
    ⟨"DELETE\\s+FROM", ['d', 'e', 'l', 'e', 't', 'e'], ['f', 'r', 'o', 'm']⟩,
    ⟨"CREATE\\s+", ['c', 'r', 'e', 'a', 't', 'e'], []⟩,
    ⟨"DROP\\s+", ['d', 'r', 'o', 'p'], []⟩,
    ⟨"ALTER\\s+", ['a', 'l', 't', 'e', 'r'], []⟩,
    ⟨"TRUNCATE\\s+", ['t', 'r', 'u', 'n', 'c', 'a', 't', 'e'], []⟩,
    ⟨"GRANT\\s+", ['g', 'r', 'a', 'n', 't'], []⟩,
    ⟨"REVOKE\\s+", ['r', 'e', 'v', 'o', 'k', 'e'], []⟩,
    ⟨"COMMIT\\s+", ['c', 'o', 'm', 'm', 'i', 't'], []⟩,
    ⟨"ROLLBACK\\s+", ['r', 'o', 'l', 'l', 'b', 'a', 'c', 'k'], []⟩,
    ⟨"SAVEPOINT\\s+", ['s', 'a', 'v', 'e', 'p', 'o', 'i', 'n', 't'], []⟩,
    ⟨"WITH\\s+RETURNING", ['w', 'i', 't', 'h'],
      ['r', 'e', 't', 'u', 'r', 'n', 'i', 'n', 'g']⟩,
    ⟨"INTO\\s+", ['i', 'n', 't', 'o'], []⟩ ]

/-- Match of one blocklist regex at the current position (IGNORECASE,
plain substring semantics — the regexes carry no word boundaries). -/
def illegalMatchAt (p : IllegalPattern) (l : List Char) : Bool :=
  startsWithCI p.kw1 l && wsPlusThen p.kw2 (l.drop p.kw1.length)

/-- `re.search` of one blocklist regex: a match at any position. -/
def searchIllegal (p : IllegalPattern) : List Char → Bool
  | [] => false
  | c :: rest => illegalMatchAt p (c :: rest) || searchIllegal p rest

/-- The first blocklist regex (in source order) matching somewhere in the
quote-stripped text, as reported in the raised error. -/
def firstIllegalPattern (l : List Char) : Option String :=
  (ILLEGAL_OPERATION_PATTERNS.find? (fun p => searchIllegal p l)).map (·.source)

/-- Embedding of `_validate_security`: blocklist scan on the
quote-stripped text, then the two backtick checks on the full text. -/
def validate_security (final_sql : List Char) : Except ErrKind Unit :=
  let unquoted := remove_quoted_content final_sql
  match firstIllegalPattern unquoted with
  | some src => .error (.blockedOperation src)
  | none =>
    if final_sql.head? = some '`' || final_sql.getLast? = some '`' then
      .error .invalidBacktickEdge
    else if has_unquoted_backtick final_sql then
      .error .invalidBacktickBody
    else .ok ()

/-- Embedding of `extract_sql`: the four pipeline stages, failures wrapped
with the diagnostic context of `_create_error_context` (stage outputs not
yet produced are marked «N/A»). -/
def extract_sql (input_text : List Char) : Except GatewayError (List Char) :=
  let sanitized_text := clean_input_text input_text
  match extract_sql_candidate sanitized_text with
  | .error k => .error ⟨k, input_text, sanitized_text, NA⟩
  | .ok sql_candidate =>
    match process_termination_pattern sql_candidate with
    | .error k => .error ⟨k, input_text, sanitized_text, sql_candidate⟩
    | .ok final_sql =>
      match validate_security final_sql with
      | .error k => .error ⟨k, input_text, sanitized_text, sql_candidate⟩
      | .ok _ => .ok final_sql

/-! ### Basic lemmas about the whitespace primitives -/

theorem dropWhile_idem (p : Char → Bool) (l : List Char) :
    (l.dropWhile p).dropWhile p = l.dropWhile p := by
  induction l with
  | nil => simp
  | cons c rest ih =>
    by_cases h : p c
    · simp [List.dropWhile_cons, h, ih]
    · simp [List.dropWhile_cons, h]

theorem rstrip_idem (l : List Char) : rstrip (rstrip l) = rstrip l := by
  simp [rstrip, dropWhile_idem]

theorem rstrip_eq_nil_iff (l : List Char) :
    rstrip l = [] ↔ ∀ c ∈ l, isSpace c = true := by
  unfold rstrip
  rw [List.reverse_eq_nil_iff, List.dropWhile_eq_nil_iff]
  constructor
  · intro h c hc
    exact h c (by simpa using hc)
  · intro h c hc
    exact h c (by simpa using hc)

theorem rstrip_cons_of_rstrip_ne_nil (c : Char) (l : List Char) (h : rstrip l ≠ []) :
    rstrip (c :: l) = c :: rstrip l := by
  have hne : l.reverse.dropWhile isSpace ≠ [] := by
    intro hcon
    exact h (by simp [rstrip, hcon])
  unfold rstrip
  rw [show (c :: l).reverse = l.reverse ++ [c] from by simp]
  rw [List.dropWhile_append]
  rw [if_neg (by simpa [List.isEmpty_iff] using hne)]
  simp

theorem rstrip_cons_of_not_space (c : Char) (l : List Char) (h : isSpace c = false) :
    rstrip (c :: l) = c :: rstrip l := by
  unfold rstrip
  rw [show (c :: l).reverse = l.reverse ++ [c] from by simp]
  rw [List.dropWhile_append]
  by_cases he : (l.reverse.dropWhile isSpace).isEmpty
  · rw [if_pos he]
    have h1 : List.dropWhile isSpace [c] = [c] := by
      rw [List.dropWhile_cons, h]
      simp
    have h2 : l.reverse.dropWhile isSpace = [] := List.isEmpty_iff.mp he
    rw [h1, h2]
    simp
  · rw [if_neg he]
    simp

theorem rstrip_concat_of_not_space (c : Char) (l : List Char) (h : isSpace c = false) :
    rstrip (l ++ [c]) = l ++ [c] := by
  unfold rstrip
  rw [List.reverse_append]
  rw [show [c].reverse = [c] from rfl]
  rw [List.cons_append, List.nil_append, List.dropWhile_cons, h]
  simp

theorem dropWhile_rstrip_comm (l : List Char) :
    (rstrip l).dropWhile isSpace = rstrip (l.dropWhile isSpace) := by
  induction l with
  | nil => simp [rstrip]
  | cons c rest ih =>
    by_cases h : isSpace c
    · by_cases hr : rstrip rest = []
      · have hall : ∀ x ∈ rest, isSpace x = true := (rstrip_eq_nil_iff rest).mp hr
        have h1 : rstrip (c :: rest) = [] := by
          apply (rstrip_eq_nil_iff _).mpr
          intro x hx
          rcases List.mem_cons.mp hx with h2 | h2
          · subst h2; exact h
          · exact hall x h2
        have h2 : List.dropWhile isSpace rest = [] := List.dropWhile_eq_nil_iff.mpr hall
        rw [h1]
        rw [List.dropWhile_cons, h]
        simp [h2, rstrip]
      · rw [rstrip_cons_of_rstrip_ne_nil c rest hr]
        rw [List.dropWhile_cons, List.dropWhile_cons]
        simp only [h, if_true]
        exact ih
    · have hc : isSpace c = false := by simpa using h
      rw [rstrip_cons_of_not_space c rest hc]
      rw [List.dropWhile_cons, List.dropWhile_cons, hc]
      simp only [Bool.false_eq_true, if_false]
      exact (rstrip_cons_of_not_space c rest hc).symm

theorem strip_idem (l : List Char) : strip (strip l) = strip l := by
  unfold strip
  rw [dropWhile_rstrip_comm, dropWhile_idem, rstrip_idem]

theorem strip_cons_of_not_space (c : Char) (l : List Char) (h : isSpace c = false) :
    strip (c :: l) = c :: rstrip l := by
  unfold strip
  rw [List.dropWhile_cons]
  simp [h, rstrip_cons_of_not_space c l h]

theorem strip_concat_semi (l : List Char) :
    strip (l ++ [';']) = l.dropWhile isSpace ++ [';'] := by
  unfold strip
  rw [List.dropWhile_append]
  by_cases he : (l.dropWhile isSpace).isEmpty
  · rw [if_pos he]
    have h1 : List.dropWhile isSpace [';'] = [';'] := by
      rw [List.dropWhile_cons]
      simp [isSpace]
    rw [h1, List.isEmpty_iff.mp he]
    rw [show ([] : List Char) ++ [';'] = [';'] from rfl]
    exact rstrip_concat_of_not_space ';' [] rfl
  · rw [if_neg he]
    exact rstrip_concat_of_not_space ';' _ rfl

/-! ### Lemmas about the first-semicolon split -/

theorem splitFirstSemi_of_not_mem (l : List Char) (h : ';' ∉ l) :
    splitFirstSemi l = (l, []) := by
  induction l with
  | nil => rfl
  | cons c rest ih =>
    have hc : c ≠ ';' := by
      intro hcon; exact h (by simp [hcon])
    have hrest : ';' ∉ rest := by
      intro hcon; exact h (by simp [hcon])
    rw [splitFirstSemi]
    · rw [ih hrest]
    · exact hc

theorem splitFirstSemi_fst_not_mem (l : List Char) : ';' ∉ (splitFirstSemi l).1 := by
  induction l with
  | nil => simp [splitFirstSemi]
  | cons c rest ih =>
    by_cases hc : c = ';'
    · subst hc; simp [splitFirstSemi]
    · rw [splitFirstSemi]
      · simp
        constructor
        · exact fun hcon => hc hcon.symm
        · exact ih
      · exact hc

theorem splitFirstSemi_snd_cases (l : List Char) :
    (splitFirstSemi l).2 = [] ∨ (splitFirstSemi l).2 = [';'] := by
  induction l with
  | nil => simp [splitFirstSemi]
  | cons c rest ih =>
    by_cases hc : c = ';'
    · subst hc; simp [splitFirstSemi]
    · rw [splitFirstSemi]
      · simpa using ih
      · exact hc

theorem splitFirstSemi_append (l : List Char) :
    ∃ t, l = (splitFirstSemi l).1 ++ (splitFirstSemi l).2 ++ t ∧
      ((splitFirstSemi l).2 = [] → t = []) := by
  induction l with
  | nil => exact ⟨[], by simp [splitFirstSemi]⟩
  | cons c rest ih =>
    by_cases hc : c = ';'
    · subst hc
      exact ⟨rest, by simp [splitFirstSemi]⟩
    · obtain ⟨t, ht, ht2⟩ := ih
      refine ⟨t, ?_, ?_⟩
      · rw [splitFirstSemi]
        · simpa using ht
        · exact hc
      · intro h2
        apply ht2
        rw [splitFirstSemi] at h2
        · simpa using h2
        · exact hc

theorem splitFirstSemi_head (l : List Char) (c : Char) (hc : l.head? = some c)
    (hne : c ≠ ';') : ((splitFirstSemi l).1).head? = some c := by
  cases l with
  | nil => simp at hc
  | cons x rest =>
    simp at hc
    subst hc
    rw [splitFirstSemi]
    · simp
    · exact hne

/-! ### The termination resolver always takes the semicolon rule -/

theorem not_mem_rstrip (c : Char) (l : List Char) (h : c ∉ l) : c ∉ rstrip l := by
  intro hcon
  apply h
  have h1 : c ∈ (l.reverse.dropWhile isSpace).reverse := hcon
  have h2 : c ∈ l.reverse.dropWhile isSpace := by simpa using h1
  have := (List.dropWhile_sublist (l := l.reverse) (p := isSpace)).mem h2
  simpa using this

theorem not_mem_strip (c : Char) (l : List Char) (h : c ∉ l) : c ∉ strip l := by
  apply not_mem_rstrip
  intro hcon
  exact h ((List.dropWhile_sublist (l := l) (p := isSpace)).mem hcon)

theorem getLast?_ne_of_not_mem (c : Char) (l : List Char) (h : c ∉ l) :
    l.getLast? ≠ some c := by
  intro hcon
  obtain ⟨hne, heq⟩ := List.mem_getLast?_eq_getLast (l := l) (x := c) hcon
  exact h (heq ▸ List.getLast_mem hne)

/-- The semicolon rule of `_process_termination_pattern`, as one function:
split at the first `;`, strip, re-terminate. -/
def semicolonResolve (l : List Char) : List Char :=
  if (rstrip (strip (splitFirstSemi l).1 ++ (splitFirstSemi l).2)).getLast? = some ';' then
    rstrip (strip (splitFirstSemi l).1 ++ (splitFirstSemi l).2)
  else rstrip (strip (splitFirstSemi l).1 ++ (splitFirstSemi l).2) ++ [';']

theorem process_eq_resolve (l : List Char) :
    process_termination_pattern l = .ok (semicolonResolve l) := by
  unfold process_termination_pattern semicolonMatch semicolonResolve
  rcases h : splitFirstSemi l with ⟨g1, g2⟩
  dsimp only
  by_cases hif : (rstrip (strip g1 ++ g2)).getLast? = some ';'
  · rw [if_pos hif, if_pos hif]
  · rw [if_neg hif, if_neg hif]

theorem semicolonResolve_eq (l : List Char) :
    semicolonResolve l = strip (splitFirstSemi l).1 ++ [';'] := by
  unfold semicolonResolve
  rcases splitFirstSemi_snd_cases l with h2 | h2
  · rw [h2]
    have hns : ';' ∉ strip (splitFirstSemi l).1 :=
      not_mem_strip ';' _ (splitFirstSemi_fst_not_mem l)
    have hrs : rstrip (strip (splitFirstSemi l).1 ++ []) = strip (splitFirstSemi l).1 := by
      rw [List.append_nil]
      unfold strip
      exact rstrip_idem _
    rw [hrs]
    rw [if_neg (getLast?_ne_of_not_mem ';' _ hns)]
  · rw [h2]
    rw [rstrip_concat_of_not_space ';' _ rfl]
    rw [if_pos (by simp)]

theorem process_termination_eq (l : List Char) :
    process_termination_pattern l = .ok (strip (splitFirstSemi l).1 ++ [';']) := by
  rw [process_eq_resolve, semicolonResolve_eq]

/-! ### Character-class facts -/

theorem toLower_eq_self_of_not_upper (c : Char) (h : c.isUpper = false) :
    c.toLower = c := by
  unfold Char.toLower
  simp only [Char.isUpper, Bool.and_eq_false_iff, decide_eq_false_iff_not, not_le] at h
  have h2 : ¬(c.toNat ≥ 65 ∧ c.toNat ≤ 90) := by
    rintro ⟨ha, hb⟩
    rcases h with h | h
    · exact absurd ha (by exact fun hc => absurd h (by exact fun h2 => absurd hc (by
        intro _
        exact absurd h (by simp; exact hc))))
    · exact absurd hb (by intro hc; exact absurd h (by simp; exact hc))
  simp only [h2, if_false]

theorem toLower_eq_self_of_not_word (c : Char) (h : isWordChar c = false) :
    c.toLower = c := by
  apply toLower_eq_self_of_not_upper
  simp only [isWordChar, Char.isAlpha, Bool.or_eq_false_iff] at h
  exact h.1.1.1

theorem toLower_eq_self_of_isSpace (c : Char) (h : isSpace c = true) :
    c.toLower = c := by
  simp only [isSpace, Bool.or_eq_true, decide_eq_true_eq] at h
  rcases h with ((((h | h) | h) | h) | h) | h <;> subst h <;> decide

theorem isWordChar_of_toLower_eq (c x : Char) (h : c.toLower = x)
    (hx : isWordChar x = true) : isWordChar c = true := by
  by_contra hcon
  have h2 : isWordChar c = false := by simpa using hcon
  rw [toLower_eq_self_of_not_word c h2] at h
  subst h
  rw [hx] at h2
  exact absurd h2 (by simp)

theorem not_space_of_toLower_eq (c x : Char) (h : c.toLower = x)
    (hx : isSpace x = false) : isSpace c = false := by
  by_contra hcon
  have h2 : isSpace c = true := by simpa using hcon
  rw [toLower_eq_self_of_isSpace c h2] at h
  subst h
  rw [hx] at h2
  exact absurd h2 (by simp)

theorem ne_of_toLower_ne (c x y : Char) (h : c.toLower = x) (hy : y.toLower ≠ x) :
    c ≠ y := by
  intro hcon
  subst hcon
  exact hy h

/-! ### Shape of the extracted candidate and of the final statement -/

theorem startsWithCI_cons (p : Char) (ps l : List Char)
    (h : startsWithCI (p :: ps) l = true) :
    ∃ c cs, l = c :: cs ∧ c.toLower = p ∧ startsWithCI ps cs = true := by
  cases l with
  | nil => simp [startsWithCI] at h
  | cons c cs =>
    rw [startsWithCI] at h
    simp at h
    exact ⟨c, cs, rfl, h.1.symm, h.2⟩

theorem matchAt_head (prev : Option Char) (l : List Char) (h : matchAt prev l = true) :
    ∃ c cs, l = c :: cs ∧ (c.toLower = 'w' ∨ c.toLower = 's') := by
  unfold matchAt at h
  rcases Bool.or_eq_true_iff.mp h with h1 | h1
  · unfold cteAt at h1
    have h2 := Bool.and_eq_true_iff.mp h1
    obtain ⟨c, cs, rfl, hc, _⟩ := startsWithCI_cons _ _ _ h2.1
    exact ⟨c, cs, rfl, Or.inl hc⟩
  · unfold selectAt at h1
    have h2 := Bool.and_eq_true_iff.mp h1
    have h3 := Bool.and_eq_true_iff.mp h2.1
    obtain ⟨c, cs, rfl, hc, _⟩ := startsWithCI_cons _ _ _ h3.2
    exact ⟨c, cs, rfl, Or.inr hc⟩

theorem searchFrom_some (prev : Option Char) (l suf : List Char)
    (h : searchFrom prev l = some suf) :
    (∃ prev', matchAt prev' suf = true) ∧ ∃ u, l = u ++ suf := by
  induction l generalizing prev with
  | nil => simp [searchFrom] at h
  | cons c rest ih =>
    rw [searchFrom] at h
    by_cases hm : matchAt prev (c :: rest)
    · rw [if_pos hm] at h
      have h2 : c :: rest = suf := by simpa using h
      subst h2
      exact ⟨⟨prev, hm⟩, [], rfl⟩
    · rw [if_neg hm] at h
      obtain ⟨hma, u, hu⟩ := ih (some c) h
      exact ⟨hma, c :: u, by simp [hu]⟩

theorem extract_sql_candidate_ok (t c : List Char)
    (h : extract_sql_candidate t = .ok c) :
    ∃ suf, searchFrom none t = some suf ∧ c = strip suf := by
  unfold extract_sql_candidate at h
  cases hs : searchFrom none t with
  | none => rw [hs] at h; simp at h
  | some suf =>
    rw [hs] at h
    simp at h
    exact ⟨suf, rfl, h.symm⟩

theorem extract_sql_candidate_error (t : List Char) (k : ErrKind)
    (h : extract_sql_candidate t = .error k) : k = .noStatementFound := by
  unfold extract_sql_candidate at h
  cases hs : searchFrom none t with
  | none => rw [hs] at h; simpa using h.symm
  | some suf => rw [hs] at h; simp at h

theorem candidate_head (t cand : List Char) (h : extract_sql_candidate t = .ok cand) :
    ∃ x xs, cand = x :: xs ∧ (x.toLower = 'w' ∨ x.toLower = 's') := by
  obtain ⟨suf, hs, hc⟩ := extract_sql_candidate_ok t cand h
  obtain ⟨⟨prev', hm⟩, _⟩ := searchFrom_some none t suf hs
  obtain ⟨x, cs, rfl, hx⟩ := matchAt_head prev' suf hm
  have hns : isSpace x = false := by
    rcases hx with hx | hx
    · exact not_space_of_toLower_eq x 'w' hx (by decide)
    · exact not_space_of_toLower_eq x 's' hx (by decide)
  rw [strip_cons_of_not_space x cs hns] at hc
  exact ⟨x, rstrip cs, hc, hx⟩

theorem candidate_stripped (t cand : List Char)
    (h : extract_sql_candidate t = .ok cand) : strip cand = cand := by
  obtain ⟨suf, _, hc⟩ := extract_sql_candidate_ok t cand h
  rw [hc, strip_idem]

theorem stmt_shape (t cand stmt : List Char)
    (hc : extract_sql_candidate t = .ok cand)
    (hp : process_termination_pattern cand = .ok stmt) :
    ∃ x xs, stmt = x :: xs ∧ (x.toLower = 'w' ∨ x.toLower = 's') ∧
      stmt.getLast? = some ';' := by
  rw [process_termination_eq] at hp
  have hv : stmt = strip (splitFirstSemi cand).1 ++ [';'] := by
    simpa using hp.symm
  obtain ⟨x, xs, hcand, hx⟩ := candidate_head t cand hc
  have hxsemi : x ≠ ';' := by
    rcases hx with hx | hx
    · exact ne_of_toLower_ne x 'w' ';' hx (by decide)
    · exact ne_of_toLower_ne x 's' ';' hx (by decide)
  have hg1 : ((splitFirstSemi cand).1).head? = some x :=
    splitFirstSemi_head cand x (by simp [hcand]) hxsemi
  obtain ⟨g1tail, hg1eq⟩ : ∃ g1tail, (splitFirstSemi cand).1 = x :: g1tail := by
    cases hh : (splitFirstSemi cand).1 with
    | nil => rw [hh] at hg1; simp at hg1
    | cons y ys =>
      rw [hh] at hg1
      simp at hg1
      exact ⟨ys, by rw [hg1]⟩
  have hns : isSpace x = false := by
    rcases hx with hx | hx
    · exact not_space_of_toLower_eq x 'w' hx (by decide)
    · exact not_space_of_toLower_eq x 's' hx (by decide)
  rw [hg1eq, strip_cons_of_not_space x g1tail hns] at hv
  refine ⟨x, rstrip g1tail ++ [';'], by simpa using hv, hx, ?_⟩
  rw [hv]
  exact List.getLast?_concat _

/-! ### Unfolding `extract_sql` -/

theorem extract_sql_ok_iff (s v : List Char) :
    extract_sql s = .ok v ↔
      ∃ cand, extract_sql_candidate (clean_input_text s) = .ok cand ∧
        process_termination_pattern cand = .ok v ∧
        validate_security v = .ok () := by
  constructor
  · intro h
    unfold extract_sql at h
    cases h1 : extract_sql_candidate (clean_input_text s) with
    | error k =>
      simp only [h1] at h
      exact Except.noConfusion h
    | ok cand =>
      simp only [h1] at h
      cases h2 : process_termination_pattern cand with
      | error k =>
        simp only [h2] at h
        exact Except.noConfusion h
      | ok stmt =>
        simp only [h2] at h
        cases h3 : validate_security stmt with
        | error k =>
          simp only [h3] at h
          exact Except.noConfusion h
        | ok u =>
          cases u
          simp only [h3] at h
          have hv : stmt = v := by simpa using h
          subst hv
          exact ⟨cand, rfl, h2, h3⟩
  · rintro ⟨cand, h1, h2, h3⟩
    unfold extract_sql
    simp only [h1, h2, h3]

theorem validate_security_error (stmt : List Char) (k : ErrKind)
    (h : validate_security stmt = .error k) :
    (∃ p, k = .blockedOperation p) ∨
      (k = .invalidBacktickEdge ∧ (stmt.head? = some '`' ∨ stmt.getLast? = some '`')) ∨
      k = .invalidBacktickBody := by
  unfold validate_security at h
  cases hf : firstIllegalPattern (remove_quoted_content stmt) with
  | some src =>
    simp only [hf, Except.error.injEq] at h
    exact Or.inl ⟨src, h.symm⟩
  | none =>
    simp only [hf] at h
    by_cases he : stmt.head? = some '`' ∨ stmt.getLast? = some '`'
    · rw [if_pos (by simpa using he)] at h
      simp at h
      exact Or.inr (Or.inl ⟨h.symm, he⟩)
    · rw [if_neg (by simpa using he)] at h
      by_cases hb : has_unquoted_backtick stmt
      · rw [if_pos hb] at h
        simp at h
        exact Or.inr (Or.inr h.symm)
      · rw [if_neg hb] at h
        simp at h

theorem extract_sql_error_cases (s : List Char) (e : GatewayError)
    (h : extract_sql s = .error e) :
    e.kind = .noStatementFound ∨ (∃ p, e.kind = .blockedOperation p) ∨
      e.kind = .invalidBacktickBody := by
  unfold extract_sql at h
  cases h1 : extract_sql_candidate (clean_input_text s) with
  | error k =>
    simp only [h1, Except.error.injEq] at h
    left
    rw [← h]
    simp [extract_sql_candidate_error _ _ h1]
  | ok cand =>
    simp only [h1] at h
    cases h2 : process_termination_pattern cand with
    | error k => rw [process_termination_eq] at h2; simp at h2
    | ok stmt =>
      simp only [h2] at h
      cases h3 : validate_security stmt with
      | ok u => simp only [h3] at h; exact Except.noConfusion h
      | error k =>
        simp only [h3, Except.error.injEq] at h
        rcases validate_security_error stmt k h3 with hk | ⟨hk, hloc⟩ | hk
        · right; left
          obtain ⟨p, hp⟩ := hk
          exact ⟨p, by rw [← h, hp]⟩
        · exfalso
          obtain ⟨x, xs, hstmt, hx, hlast⟩ := stmt_shape _ cand stmt h1 h2
          rcases hloc with hloc | hloc
          · rw [hstmt] at hloc
            simp at hloc
            rcases hx with hx | hx
            · exact absurd hloc (ne_of_toLower_ne x 'w' '`' hx (by decide))
            · exact absurd hloc (ne_of_toLower_ne x 's' '`' hx (by decide))
          · rw [hlast] at hloc
            simp at hloc
        · right; right
          rw [← h, hk]

/-! ### Claim-side reading of the blocklist entry `WITH ... RETURNING` -/

/-- Case-insensitive substring containment of a lowercase keyword. -/
def containsCI (kw : List Char) : List Char → Bool
  | [] => kw.isEmpty
  | c :: rest => startsWithCI kw (c :: rest) || containsCI kw rest

/-- The claim reading of the blocklist entry `WITH ... RETURNING`:
`WITH` followed by arbitrary text and then `RETURNING`, case-insensitive.
This follows the claim wording; the source regex is `WITH\s+RETURNING`
(whitespace only between the keywords). -/
def specWithArbitraryReturning : List Char → Bool
  | [] => false
  | c :: rest =>
    (startsWithCI ['w', 'i', 't', 'h'] (c :: rest) &&
      containsCI ['r', 'e', 't', 'u', 'r', 'n', 'i', 'n', 'g'] ((c :: rest).drop 4)) ||
    specWithArbitraryReturning rest

/-! ### Two-character occurrence freedom (toolkit for the idempotence claim) -/

/-- No occurrence of the adjacent pair `x, y` anywhere in `l`. -/
def pairFree (x y : Char) (l : List Char) : Prop :=
  ¬ ∃ a b, l = a ++ x :: y :: b

theorem concat_inj (l₁ l₂ : List Char) (a b : Char) (h : l₁ ++ [a] = l₂ ++ [b]) :
    l₁ = l₂ ∧ a = b := by
  have h2 := congrArg List.reverse h
  simp at h2
  exact ⟨by have := congrArg List.reverse h2.2; simpa using this, h2.1⟩

theorem pairFree_nil (x y : Char) : pairFree x y [] := by
  rintro ⟨a, b, hd⟩
  simp at hd

theorem pairFree_singleton (x y c : Char) : pairFree x y [c] := by
  rintro ⟨a, b, hd⟩
  have hlen := congrArg List.length hd
  simp at hlen
  omega

theorem pairFree_tail (x y c : Char) (l : List Char) (h : pairFree x y (c :: l)) :
    pairFree x y l := by
  rintro ⟨a, b, hd⟩
  exact h ⟨c :: a, b, by simp [hd]⟩

theorem pairFree_cons (x y c : Char) (l : List Char) (h : pairFree x y l)
    (hc : ¬(c = x ∧ l.head? = some y)) : pairFree x y (c :: l) := by
  rintro ⟨a, b, hd⟩
  cases a with
  | nil =>
    simp at hd
    exact hc ⟨hd.1, by rw [hd.2]; rfl⟩
  | cons a0 a' =>
    simp at hd
    exact h ⟨a', b, hd.2⟩

theorem pairFree_cons_head (x y c : Char) (l : List Char)
    (h : pairFree x y (c :: l)) : ¬(c = x ∧ l.head? = some y) := by
  rintro ⟨hcx, hh⟩
  cases l with
  | nil => simp at hh
  | cons d l' =>
    simp at hh
    exact h ⟨[], l', by simp [hcx, hh]⟩

theorem pairFree_infix (x y : Char) (u m w : List Char)
    (h : pairFree x y (u ++ m ++ w)) : pairFree x y m := by
  rintro ⟨a, b, hd⟩
  exact h ⟨u ++ a, b ++ w, by simp [hd]⟩

theorem pairFree_concat (x y c : Char) (l : List Char) (h : pairFree x y l)
    (hc : c ≠ y) : pairFree x y (l ++ [c]) := by
  rintro ⟨a, b, hd⟩
  rcases List.eq_nil_or_concat b with hb | ⟨b', d, hb⟩
  · subst hb
    have h2 : l ++ [c] = (a ++ [x]) ++ [y] := by simp [hd]
    obtain ⟨-, h4⟩ := concat_inj _ _ _ _ h2
    exact hc h4
  · subst hb
    have h2 : l ++ [c] = (a ++ x :: y :: b') ++ [d] := by simp [hd]
    obtain ⟨h3, -⟩ := concat_inj _ _ _ _ h2
    exact h ⟨a, b', h3⟩

/-! ### No block-comment open with a later close -/

/-- No `/*` anywhere in `l` with a `*/` somewhere after it: the condition
under which the block-comment pass leaves `l` unchanged. -/
def nocFree (l : List Char) : Prop :=
  ¬ ∃ a b c, l = a ++ '/' :: '*' :: (b ++ '*' :: '/' :: c)

theorem nocFree_nil : nocFree [] := by
  rintro ⟨a, b, c, hd⟩
  simp at hd

theorem nocFree_tail (c : Char) (l : List Char) (h : nocFree (c :: l)) : nocFree l := by
  rintro ⟨a, b, d, hd⟩
  exact h ⟨c :: a, b, d, by simp [hd]⟩

theorem nocFree_cons (c : Char) (l : List Char) (h : nocFree l) (hc : c ≠ '/') :
    nocFree (c :: l) := by
  rintro ⟨a, b, d, hd⟩
  cases a with
  | nil => simp at hd; exact hc hd.1
  | cons a0 a' =>
    simp at hd
    exact h ⟨a', b, d, hd.2⟩

theorem nocFree_cons_slash (l : List Char) (h : nocFree l)
    (hop : ¬ ∃ b d, l = '*' :: (b ++ '*' :: '/' :: d)) : nocFree ('/' :: l) := by
  rintro ⟨a, b, d, hd⟩
  cases a with
  | nil =>
    simp at hd
    exact hop ⟨b, d, hd⟩
  | cons a0 a' =>
    simp at hd
    exact h ⟨a', b, d, hd.2⟩

theorem nocFree_infix (u m w : List Char) (h : nocFree (u ++ m ++ w)) : nocFree m := by
  rintro ⟨a, b, d, hd⟩
  exact h ⟨u ++ a, b, d ++ w, by simp [hd]⟩

theorem nocFree_concat (c : Char) (l : List Char) (h : nocFree l) (hc : c ≠ '/') :
    nocFree (l ++ [c]) := by
  rintro ⟨a, b, d, hd⟩
  rcases List.eq_nil_or_concat d with hd2 | ⟨d', e, hd2⟩
  · subst hd2
    have h2 : l ++ [c] = (a ++ '/' :: '*' :: b ++ ['*']) ++ ['/'] := by simp [hd]
    obtain ⟨-, h4⟩ := concat_inj _ _ _ _ h2
    exact hc h4
  · subst hd2
    have h2 : l ++ [c] = (a ++ '/' :: '*' :: (b ++ '*' :: '/' :: d')) ++ [e] := by
      simp [hd]
    obtain ⟨h3, -⟩ := concat_inj _ _ _ _ h2
    exact h ⟨a, b, d', h3⟩

theorem starFree_of_nocFree (r : List Char) (h : nocFree ('/' :: '*' :: r)) :
    pairFree '*' '/' r := by
  rintro ⟨a, b, hd⟩
  exact h ⟨[], a, b, by simp [hd]⟩

/-! ### Bridging `findClose` with pair freedom -/

theorem findClose_none_iff (l : List Char) :
    findClose l = none ↔ pairFree '*' '/' l := by
  induction l using findClose.induct with
  | case1 =>
    constructor
    · intro _; exact pairFree_nil _ _
    · intro _; rfl
  | case2 rest =>
    constructor
    · intro h; simp [findClose] at h
    · intro h; exact absurd ⟨[], rest, rfl⟩ h
  | case3 c rest hne ih =>
    rw [findClose]
    · rw [ih]
      constructor
      · intro h
        apply pairFree_cons _ _ _ _ h
        rintro ⟨hc, hh⟩
        cases rest with
        | nil => simp at hh
        | cons d r' =>
          simp at hh
          exact hne r' hc (by rw [hh])
      · exact pairFree_tail _ _ _ _
    · exact hne

theorem findClose_some_decomp (l r : List Char) (h : findClose l = some r) :
    ∃ a, l = a ++ '*' :: '/' :: r := by
  induction l using findClose.induct with
  | case1 => simp [findClose] at h
  | case2 rest =>
    simp [findClose] at h
    exact ⟨[], by simp [h]⟩
  | case3 c rest hne ih =>
    rw [findClose] at h
    · obtain ⟨a, ha⟩ := ih h
      exact ⟨c :: a, by simp [ha]⟩
    · exact hne

/-! ### The block-comment pass: fixpoint and produced invariant -/

theorem rbc_cons_ne (c : Char) (l : List Char) (hc : c ≠ '/') :
    removeBlockComments (c :: l) = c :: removeBlockComments l :=
  removeBlockComments.eq_3 c l (fun _ h1 _ => hc h1)

theorem rbc_eq_some (rest rest2 : List Char) (hfc : findClose rest = some rest2) :
    removeBlockComments ('/' :: '*' :: rest) = ' ' :: removeBlockComments rest2 := by
  rw [removeBlockComments.eq_2]
  split
  next r2 heq =>
    rw [hfc] at heq
    cases heq
    rfl
  next heq =>
    rw [hfc] at heq
    exact Option.noConfusion heq

theorem rbc_eq_none (rest : List Char) (hfc : findClose rest = none) :
    removeBlockComments ('/' :: '*' :: rest) = '/' :: removeBlockComments ('*' :: rest) := by
  rw [removeBlockComments.eq_2]
  split
  next r2 heq =>
    rw [hfc] at heq
    exact Option.noConfusion heq
  next heq => rfl

theorem rbc_no_close : ∀ l : List Char, findClose l = none → removeBlockComments l = l := by
  intro l
  induction l using removeBlockComments.induct with
  | case1 => intro _; exact removeBlockComments.eq_1
  | case2 rest rest2 hfc ih =>
    intro h
    exfalso
    have hp : pairFree '*' '/' ('/' :: '*' :: rest) := (findClose_none_iff _).mp h
    have hp2 : pairFree '*' '/' rest := pairFree_tail _ _ _ _ (pairFree_tail _ _ _ _ hp)
    rw [(findClose_none_iff rest).mpr hp2] at hfc
    exact Option.noConfusion hfc
  | case3 rest hfc ih =>
    intro h
    have hp : pairFree '*' '/' ('/' :: '*' :: rest) := (findClose_none_iff _).mp h
    have h4 : findClose ('*' :: rest) = none :=
      (findClose_none_iff _).mpr (pairFree_tail _ _ _ _ hp)
    rw [rbc_eq_none rest hfc, ih h4]
  | case4 c rest hne ih =>
    intro h
    have hp : pairFree '*' '/' (c :: rest) := (findClose_none_iff _).mp h
    rw [removeBlockComments.eq_3 c rest hne,
      ih ((findClose_none_iff rest).mpr (pairFree_tail _ _ _ _ hp))]

theorem rbc_fix : ∀ l : List Char, nocFree l → removeBlockComments l = l := by
  intro l
  induction l using removeBlockComments.induct with
  | case1 => intro _; exact removeBlockComments.eq_1
  | case2 rest rest2 hfc ih =>
    intro h
    exfalso
    obtain ⟨a, ha⟩ := findClose_some_decomp rest rest2 hfc
    exact h ⟨[], a, rest2, by simp [ha]⟩
  | case3 rest hfc ih =>
    intro h
    rw [rbc_eq_none rest hfc, ih (nocFree_tail _ _ h)]
  | case4 c rest hne ih =>
    intro h
    rw [removeBlockComments.eq_3 c rest hne, ih (nocFree_tail _ _ h)]

theorem rbc_head (l : List Char) :
    (removeBlockComments l).head? = l.head? ∨
      (removeBlockComments l).head? = some ' ' := by
  induction l using removeBlockComments.induct with
  | case1 => left; rw [removeBlockComments.eq_1]
  | case2 rest rest2 hfc ih =>
    right
    rw [rbc_eq_some rest rest2 hfc]
    rfl
  | case3 rest hfc ih =>
    left
    rw [rbc_eq_none rest hfc]
    rfl
  | case4 c rest hne ih =>
    left
    rw [removeBlockComments.eq_3 c rest hne]
    rfl

theorem rbc_nocFree : ∀ l : List Char, nocFree (removeBlockComments l) := by
  intro l
  induction l using removeBlockComments.induct with
  | case1 => rw [removeBlockComments.eq_1]; exact nocFree_nil
  | case2 rest rest2 hfc ih =>
    rw [rbc_eq_some rest rest2 hfc]
    exact nocFree_cons _ _ ih (by decide)
  | case3 rest hfc ih =>
    rw [rbc_eq_none rest hfc]
    apply nocFree_cons_slash _ ih
    rintro ⟨b, d, hd⟩
    rw [rbc_cons_ne '*' rest (by decide), rbc_no_close rest hfc] at hd
    simp at hd
    exact absurd ⟨b, d, hd⟩ ((findClose_none_iff rest).mp hfc)
  | case4 c rest hne ih =>
    rw [removeBlockComments.eq_3 c rest hne]
    by_cases hc : c = '/'
    · subst hc
      apply nocFree_cons_slash _ ih
      rintro ⟨b, d, hd⟩
      rcases rbc_head rest with hh | hh
      · rw [hd] at hh
        cases rest with
        | nil => simp at hh
        | cons r0 r1 =>
          simp at hh
          exact hne r1 rfl (by rw [← hh])
      · rw [hd] at hh
        simp at hh
    · exact nocFree_cons _ _ ih hc

/-! ### The line-comment pass: fixpoint and produced invariant -/

theorem rlc_cons_ne (c : Char) (l : List Char)
    (hc : ¬(c = '-' ∧ l.head? = some '-')) :
    removeLineComments (c :: l) = c :: removeLineComments l := by
  apply removeLineComments.eq_3 c l
  intro r1 h1 h2
  exact hc ⟨h1, by rw [h2]; rfl⟩

theorem skipToEol_suffix : ∀ l : List Char, ∃ u, l = u ++ skipToEol l := by
  intro l
  induction l using skipToEol.induct with
  | case1 => exact ⟨[], rfl⟩
  | case2 rest => exact ⟨[], rfl⟩
  | case3 c rest hne ih =>
    obtain ⟨u, hu⟩ := ih
    refine ⟨c :: u, ?_⟩
    rw [skipToEol]
    · simpa using hu
    · exact hne

theorem rlc_head (l : List Char) :
    (removeLineComments l).head? = l.head? ∨
      (removeLineComments l).head? = some ' ' := by
  induction l using removeLineComments.induct with
  | case1 => left; rw [removeLineComments.eq_1]
  | case2 rest ih => right; rw [removeLineComments.eq_2]; rfl
  | case3 c rest hne ih =>
    left
    rw [removeLineComments.eq_3 c rest hne]
    rfl

theorem rlc_ddFree : ∀ l : List Char, pairFree '-' '-' (removeLineComments l) := by
  intro l
  induction l using removeLineComments.induct with
  | case1 => rw [removeLineComments.eq_1]; exact pairFree_nil _ _
  | case2 rest ih =>
    rw [removeLineComments.eq_2]
    apply pairFree_cons _ _ _ _ ih
    rintro ⟨hc, -⟩
    exact absurd hc (by decide)
  | case3 c rest hne ih =>
    rw [removeLineComments.eq_3 c rest hne]
    apply pairFree_cons _ _ _ _ ih
    rintro ⟨hc, hh⟩
    rcases rlc_head rest with h2 | h2
    · rw [h2] at hh
      cases rest with
      | nil => simp at hh
      | cons r0 r1 =>
        simp at hh
        exact hne r1 hc (by rw [← hh])
    · rw [h2] at hh
      simp at hh

theorem rlc_fix : ∀ l : List Char, pairFree '-' '-' l → removeLineComments l = l := by
  intro l
  induction l using removeLineComments.induct with
  | case1 => intro _; exact removeLineComments.eq_1
  | case2 rest ih =>
    intro h
    exact absurd ⟨[], rest, rfl⟩ h
  | case3 c rest hne ih =>
    intro h
    rw [removeLineComments.eq_3 c rest hne, ih (pairFree_tail _ _ _ _ h)]

theorem rlc_pairFree (x y : Char) (hx : x ≠ ' ') (hy : y ≠ ' ') :
    ∀ l : List Char, pairFree x y l → pairFree x y (removeLineComments l) := by
  intro l
  induction l using removeLineComments.induct with
  | case1 => intro h; rw [removeLineComments.eq_1]; exact h
  | case2 rest ih =>
    intro h
    rw [removeLineComments.eq_2]
    have hrest : pairFree x y rest := pairFree_tail _ _ _ _ (pairFree_tail _ _ _ _ h)
    obtain ⟨u, hu⟩ := skipToEol_suffix rest
    have hskip : pairFree x y (skipToEol rest) := by
      apply pairFree_infix x y u _ []
      rw [List.append_nil, ← hu]
      exact hrest
    apply pairFree_cons _ _ _ _ (ih hskip)
    rintro ⟨hc, -⟩
    exact hx hc.symm
  | case3 c rest hne ih =>
    intro h
    rw [removeLineComments.eq_3 c rest hne]
    apply pairFree_cons _ _ _ _ (ih (pairFree_tail _ _ _ _ h))
    rintro ⟨hc, hh⟩
    rcases rlc_head rest with h2 | h2
    · rw [h2] at hh
      exact pairFree_cons_head x y c rest h ⟨hc, hh⟩
    · rw [h2] at hh
      simp at hh
      exact hy hh.symm

theorem rlc_nocFree : ∀ l : List Char, nocFree l → nocFree (removeLineComments l) := by
  intro l
  induction l using removeLineComments.induct with
  | case1 => intro h; rw [removeLineComments.eq_1]; exact h
  | case2 rest ih =>
    intro h
    rw [removeLineComments.eq_2]
    have hrest : nocFree rest := nocFree_tail _ _ (nocFree_tail _ _ h)
    obtain ⟨u, hu⟩ := skipToEol_suffix rest
    have hskip : nocFree (skipToEol rest) := by
      apply nocFree_infix u _ []
      rw [List.append_nil, ← hu]
      exact hrest
    exact nocFree_cons _ _ (ih hskip) (by decide)
  | case3 c rest hne ih =>
    intro h
    rw [removeLineComments.eq_3 c rest hne]
    by_cases hc : c = '/'
    · subst hc
      apply nocFree_cons_slash _ (ih (nocFree_tail _ _ h))
      rintro ⟨b, d, hd⟩
      have hh : (removeLineComments rest).head? = some '*' := by rw [hd]; rfl
      rcases rlc_head rest with h2 | h2
      · rw [h2] at hh
        cases rest with
        | nil => simp at hh
        | cons r0 r1 =>
          simp at hh
          subst hh
          have hstar : pairFree '*' '/' r1 := starFree_of_nocFree r1 h
          have hstar2 : pairFree '*' '/' (removeLineComments r1) :=
            rlc_pairFree '*' '/' (by decide) (by decide) r1 hstar
          rw [rlc_cons_ne '*' r1 (by rintro ⟨hcon, -⟩; exact absurd hcon (by decide))]
            at hd
          simp at hd
          exact absurd ⟨b, d, hd⟩ hstar2
      · rw [h2] at hh
        simp at hh
    · exact nocFree_cons _ _ (ih (nocFree_tail _ _ h)) hc

/-! ### The fence-backtick pass: shape and preserved invariants -/

theorem reverse_dropWhile_reverse_prefix (p : Char → Bool) (l : List Char) :
    ∃ t, l = (l.reverse.dropWhile p).reverse ++ t := by
  refine ⟨(l.reverse.takeWhile p).reverse, ?_⟩
  have h := List.takeWhile_append_dropWhile p l.reverse
  have h2 := congrArg List.reverse h
  simp only [List.reverse_append, List.reverse_reverse] at h2
  exact h2.symm

theorem dropTrailingBackticks_prefix (l : List Char) :
    ∃ t, l = dropTrailingBackticks l ++ t := by
  unfold dropTrailingBackticks
  exact reverse_dropWhile_reverse_prefix _ l

theorem fence_cases (l : List Char) :
    ∃ u m w, l = u ++ m ++ w ∧
      (stripFenceBackticks l = m ∨ stripFenceBackticks l = m ++ ['\n']) := by
  have hu : l = l.takeWhile (· = '`') ++ l.dropWhile (· = '`') :=
    (List.takeWhile_append_dropWhile _ l).symm
  simp only [stripFenceBackticks]
  split
  next heq =>
    obtain ⟨t, ht⟩ := dropTrailingBackticks_prefix (l.dropWhile (· = '`'))
    refine ⟨l.takeWhile (· = '`'), dropTrailingBackticks (l.dropWhile (· = '`')), t, ?_,
      Or.inl rfl⟩
    rw [List.append_assoc, ← ht]
    exact hu
  next heq =>
    by_cases hbt : (l.dropWhile (· = '`')).dropLast.getLast? = some '`'
    · rw [if_pos hbt]
      obtain ⟨t, ht⟩ := dropTrailingBackticks_prefix (l.dropWhile (· = '`')).dropLast
      refine ⟨l.takeWhile (· = '`'),
        dropTrailingBackticks (l.dropWhile (· = '`')).dropLast, t ++ ['\n'], ?_,
        Or.inr rfl⟩
      have h3 : (l.dropWhile (· = '`')).dropLast ++ ['\n'] = l.dropWhile (· = '`') :=
        List.dropLast_append_getLast? '\n' heq
      calc l = l.takeWhile (· = '`') ++ l.dropWhile (· = '`') := hu
      _ = l.takeWhile (· = '`') ++ ((l.dropWhile (· = '`')).dropLast ++ ['\n']) := by
          rw [h3]
      _ = l.takeWhile (· = '`') ++
            ((dropTrailingBackticks (l.dropWhile (· = '`')).dropLast ++ t) ++ ['\n']) := by
          rw [← ht]
      _ = _ := by simp
    · rw [if_neg hbt]
      exact ⟨l.takeWhile (· = '`'), l.dropWhile (· = '`'), [], by simpa using hu,
        Or.inl rfl⟩
  next h1 h2 =>
    exact ⟨l.takeWhile (· = '`'), l.dropWhile (· = '`'), [], by simpa using hu,
      Or.inl rfl⟩

theorem fence_pairFree (x y : Char) (hy : y ≠ '\n') (l : List Char)
    (h : pairFree x y l) : pairFree x y (stripFenceBackticks l) := by
  obtain ⟨u, m, w, hl, hf | hf⟩ := fence_cases l
  · rw [hf]
    exact pairFree_infix x y u m w (hl ▸ h)
  · rw [hf]
    exact pairFree_concat x y '\n' m ( pairFree_infix x y u m w (hl ▸ h)) (Ne.symm hy)

theorem fence_nocFree (l : List Char) (h : nocFree l) :
    nocFree (stripFenceBackticks l) := by
  obtain ⟨u, m, w, hl, hf | hf⟩ := fence_cases l
  · rw [hf]
    exact nocFree_infix u m w (hl ▸ h)
  · rw [hf]
    exact nocFree_concat '\n' m ( nocFree_infix u m w (hl ▸ h)) (by decide)

/-! ### The whitespace-collapse pass: fixpoint and produced invariants -/

theorem nocFree_singleton (c : Char) : nocFree [c] := by
  rintro ⟨a, b, d, hd⟩
  have hlen := congrArg List.length hd
  simp at hlen
  omega

theorem collapse_cons_not_space (c : Char) (l : List Char) (hc : isSpace c = false) :
    collapseWs (c :: l) = c :: collapseWs l := by
  cases l with
  | nil => simp [collapseWs, hc]
  | cons c2 rest => simp [collapseWs, hc]

theorem collapse_head (l : List Char) :
    (collapseWs l).head? = l.head?.map (fun c => if isSpace c then ' ' else c) := by
  induction l using collapseWs.induct with
  | case1 => rfl
  | case2 c hc => simp [collapseWs, hc]
  | case3 c hc =>
    have hc2 : isSpace c = false := by simpa using hc
    simp [collapseWs, hc2]
  | case4 c1 c2 rest hb ih =>
    rw [collapseWs.eq_3, if_pos hb]
    rw [ih]
    have h1 : isSpace c1 = true := (Bool.and_eq_true_iff.mp hb).1
    have h2 : isSpace c2 = true := (Bool.and_eq_true_iff.mp hb).2
    simp [h1, h2]
  | case5 c1 c2 rest hb ih =>
    rw [collapseWs.eq_3, if_neg hb]
    simp

theorem collapse_space_mem (l : List Char) :
    ∀ c ∈ collapseWs l, isSpace c = true → c = ' ' := by
  induction l using collapseWs.induct with
  | case1 => intro c hc; simp [collapseWs] at hc
  | case2 c hc =>
    intro d hd hsp
    simp [collapseWs, hc] at hd
    exact hd
  | case3 c hc =>
    intro d hd hsp
    have hc2 : isSpace c = false := by simpa using hc
    simp [collapseWs, hc2] at hd
    subst hd
    exact absurd hsp (by simpa using hc2)
  | case4 c1 c2 rest hb ih =>
    intro d hd hsp
    rw [collapseWs.eq_3, if_pos hb] at hd
    exact ih d hd hsp
  | case5 c1 c2 rest hb ih =>
    intro d hd hsp
    rw [collapseWs.eq_3, if_neg hb] at hd
    rcases List.mem_cons.mp hd with hd | hd
    · by_cases h1 : isSpace c1
      · rw [if_pos h1] at hd
        exact hd
      · rw [if_neg h1] at hd
        subst hd
        exact absurd hsp h1
    · exact ih d hd hsp

theorem collapse_pairFree_sp (l : List Char) : pairFree ' ' ' ' (collapseWs l) := by
  induction l using collapseWs.induct with
  | case1 => exact pairFree_nil _ _
  | case2 c hc =>
    rw [collapseWs]
    simp [hc]
    exact pairFree_singleton _ _ _
  | case3 c hc =>
    have hc2 : isSpace c = false := by simpa using hc
    rw [collapseWs]
    simp [hc2]
    exact pairFree_singleton _ _ _
  | case4 c1 c2 rest hb ih =>
    rw [collapseWs.eq_3, if_pos hb]
    exact ih
  | case5 c1 c2 rest hb ih =>
    rw [collapseWs.eq_3, if_neg hb]
    apply pairFree_cons _ _ _ _ ih
    rintro ⟨hx, hh⟩
    rw [collapse_head] at hh
    have hh2 : (if isSpace c2 = true then ' ' else c2) = ' ' := by simpa using hh
    by_cases h2 : isSpace c2
    · by_cases h1 : isSpace c1
      · exact hb (by rw [h1, h2]; rfl)
      · rw [if_neg h1] at hx
        exact h1 (by rw [hx]; rfl)
    · rw [if_neg h2] at hh2
      exact h2 (by rw [hh2]; rfl)

theorem collapse_pairFree (x y : Char) (hx : isSpace x = false) (hy : isSpace y = false) :
    ∀ l : List Char, pairFree x y l → pairFree x y (collapseWs l) := by
  intro l
  induction l using collapseWs.induct with
  | case1 => intro _; exact pairFree_nil _ _
  | case2 c hc =>
    intro _
    rw [collapseWs]
    simp [hc]
    exact pairFree_singleton _ _ _
  | case3 c hc =>
    intro _
    have hc2 : isSpace c = false := by simpa using hc
    rw [collapseWs]
    simp [hc2]
    exact pairFree_singleton _ _ _
  | case4 c1 c2 rest hb ih =>
    intro h
    rw [collapseWs.eq_3, if_pos hb]
    exact ih (pairFree_tail _ _ _ _ h)
  | case5 c1 c2 rest hb ih =>
    intro h
    rw [collapseWs.eq_3, if_neg hb]
    apply pairFree_cons _ _ _ _ (ih (pairFree_tail _ _ _ _ h))
    rintro ⟨hcx, hh⟩
    rw [collapse_head] at hh
    have hh2 : (if isSpace c2 = true then ' ' else c2) = y := by simpa using hh
    by_cases h1 : isSpace c1
    · rw [if_pos h1] at hcx
      rw [← hcx] at hx
      exact absurd hx (by simp [isSpace])
    · rw [if_neg h1] at hcx
      by_cases h2 : isSpace c2
      · rw [if_pos h2] at hh2
        rw [← hh2] at hy
        exact absurd hy (by simp [isSpace])
      · rw [if_neg h2] at hh2
        exact pairFree_cons_head x y c1 (c2 :: rest) h ⟨hcx, by rw [hh2]; rfl⟩

theorem collapse_nocFree : ∀ l : List Char, nocFree l → nocFree (collapseWs l) := by
  intro l
  induction l using collapseWs.induct with
  | case1 => intro _; exact nocFree_nil
  | case2 c hc =>
    intro _
    rw [collapseWs]
    simp only [hc, if_true]
    exact nocFree_singleton _
  | case3 c hc =>
    intro _
    have hc2 : isSpace c = false := by simpa using hc
    rw [collapseWs]
    simp only [hc2, Bool.false_eq_true, if_false]
    exact nocFree_singleton _
  | case4 c1 c2 rest hb ih =>
    intro h
    rw [collapseWs.eq_3, if_pos hb]
    exact ih (nocFree_tail _ _ h)
  | case5 c1 c2 rest hb ih =>
    intro h
    rw [collapseWs.eq_3, if_neg hb]
    by_cases h1 : isSpace c1
    · rw [if_pos h1]
      exact nocFree_cons _ _ (ih (nocFree_tail _ _ h)) (by decide)
    · rw [if_neg h1]
      by_cases hc1 : c1 = '/'
      · subst hc1
        apply nocFree_cons_slash _ (ih (nocFree_tail _ _ h))
        rintro ⟨b, d, hd⟩
        have hh : (collapseWs (c2 :: rest)).head? = some '*' := by rw [hd]; rfl
        rw [collapse_head] at hh
        have hh2 : (if isSpace c2 = true then ' ' else c2) = '*' := by simpa using hh
        by_cases h2 : isSpace c2
        · rw [if_pos h2] at hh2
          exact absurd hh2 (by decide)
        · have h2f : isSpace c2 = false := by simpa using h2
          rw [if_neg h2] at hh2
          subst hh2
          rw [collapse_cons_not_space _ rest h2f] at hd
          simp at hd
          have hstar : pairFree '*' '/' rest := starFree_of_nocFree rest h
          have hcoll : pairFree '*' '/' (collapseWs rest) :=
            collapse_pairFree '*' '/' (by decide) (by decide) rest hstar
          exact absurd ⟨b, d, hd⟩ hcoll
      · exact nocFree_cons _ _ (ih (nocFree_tail _ _ h)) hc1

theorem collapse_fix : ∀ l : List Char, (∀ c ∈ l, isSpace c = true → c = ' ') →
    pairFree ' ' ' ' l → collapseWs l = l := by
  intro l
  induction l using collapseWs.induct with
  | case1 => intro _ _; rfl
  | case2 c hc =>
    intro hmem _
    rw [collapseWs]
    simp only [hc, if_true]
    rw [hmem c (by simp) hc]
  | case3 c hc =>
    intro _ _
    have hc2 : isSpace c = false := by simpa using hc
    rw [collapseWs]
    simp [hc2]
  | case4 c1 c2 rest hb ih =>
    intro hmem hp
    exfalso
    have h1 : isSpace c1 = true := (Bool.and_eq_true_iff.mp hb).1
    have h2 : isSpace c2 = true := (Bool.and_eq_true_iff.mp hb).2
    have e1 : c1 = ' ' := hmem c1 (by simp) h1
    have e2 : c2 = ' ' := hmem c2 (by simp) h2
    subst e1
    subst e2
    exact hp ⟨[], rest, rfl⟩
  | case5 c1 c2 rest hb ih =>
    intro hmem hp
    rw [collapseWs.eq_3, if_neg hb]
    have htail : collapseWs (c2 :: rest) = c2 :: rest :=
      ih (fun c hc => hmem c (by simp [hc])) (pairFree_tail _ _ _ _ hp)
    rw [htail]
    by_cases h1 : isSpace c1
    · rw [if_pos h1, hmem c1 (by simp) (by simpa using h1)]
    · rw [if_neg h1]

/-! ### Keyword decompositions and prefix chains -/

theorem startsWithCI_iff_map (kw : List Char) : ∀ l : List Char,
    startsWithCI kw l = true ↔ ∃ A r, l = A ++ r ∧ A.map Char.toLower = kw := by
  induction kw with
  | nil =>
    intro l
    constructor
    · intro _; exact ⟨[], l, rfl, rfl⟩
    · intro _; rfl
  | cons p ps ih =>
    intro l
    cases l with
    | nil =>
      constructor
      · intro h; simp [startsWithCI] at h
      · rintro ⟨A, r, hl, hm⟩
        have hA : A = [] := by
          cases A with
          | nil => rfl
          | cons a A' => simp at hl
        subst hA
        simp at hm
    | cons c cs =>
      rw [startsWithCI]
      constructor
      · intro h
        simp at h
        obtain ⟨A, r, hl, hm⟩ := (ih cs).mp h.2
        exact ⟨c :: A, r, by simp [hl], by simp [hm, h.1.symm]⟩
      · rintro ⟨A, r, hl, hm⟩
        cases A with
        | nil => simp at hm
        | cons a A' =>
          simp at hl hm
          simp [hl.1 ▸ hm.1, (ih cs).mpr ⟨A', r, hl.2, hm.2⟩]

theorem rstrip_prefix (l : List Char) : ∃ t, l = rstrip l ++ t := by
  unfold rstrip
  exact reverse_dropWhile_reverse_prefix _ l

theorem split_fst_prefix (l : List Char) : ∃ t, l = (splitFirstSemi l).1 ++ t := by
  obtain ⟨t, ht, -⟩ := splitFirstSemi_append l
  exact ⟨(splitFirstSemi l).2 ++ t, by simpa using ht⟩

theorem head?_append_left (P t : List Char) (hP : P ≠ []) :
    (P ++ t).head? = P.head? := by
  cases P with
  | nil => exact absurd rfl hP
  | cons p ps => rfl

theorem rstrip_append_left (A r : List Char) (a : Char) (ha : A.getLast? = some a)
    (hsp : isSpace a = false) : rstrip (A ++ r) = A ++ rstrip r := by
  unfold rstrip
  rw [List.reverse_append, List.dropWhile_append]
  by_cases he : (r.reverse.dropWhile isSpace).isEmpty
  · rw [if_pos he]
    have hAr : A.reverse.head? = some a := by
      rw [← List.head?_reverse] at ha
      exact ha
    have hd : A.reverse.dropWhile isSpace = A.reverse := by
      cases hA : A.reverse with
      | nil => rfl
      | cons x xs =>
        rw [hA] at hAr
        simp at hAr
        rw [List.dropWhile_cons, hAr, hsp]
        simp
    rw [hd, List.isEmpty_iff.mp he]
    simp
  · rw [if_neg he]
    simp

theorem strip_keyword_append (A r : List Char) (a0 aN : Char)
    (h0 : A.head? = some a0) (hsp0 : isSpace a0 = false)
    (hN : A.getLast? = some aN) (hspN : isSpace aN = false) :
    strip (A ++ r) = A ++ rstrip r := by
  unfold strip
  have hd : (A ++ r).dropWhile isSpace = A ++ r := by
    cases A with
    | nil => simp at h0
    | cons x xs =>
      simp at h0
      subst h0
      rw [List.cons_append, List.dropWhile_cons, hsp0]
      simp
  rw [hd]
  exact rstrip_append_left A r aN hN hspN

theorem splitFirstSemi_append_left (A z : List Char) (hA : ';' ∉ A) :
    splitFirstSemi (A ++ z) = (A ++ (splitFirstSemi z).1, (splitFirstSemi z).2) := by
  induction A with
  | nil => simp
  | cons a A' ih =>
    have ha : a ≠ ';' := fun hcon => hA (by simp [hcon])
    have hA' : ';' ∉ A' := fun hcon => hA (by simp [hcon])
    rw [List.cons_append, splitFirstSemi]
    · rw [ih hA']
      simp
    · exact ha

theorem fence_fix (v : List Char) (x : Char) (hhead : v.head? = some x)
    (hx : x ≠ '`') (hlast : v.getLast? = some ';') :
    stripFenceBackticks v = v := by
  have hd : v.dropWhile (· = '`') = v := by
    cases v with
    | nil => rfl
    | cons c cs =>
      simp at hhead
      subst hhead
      rw [List.dropWhile_cons]
      simp [hx]
  simp only [stripFenceBackticks, hd]
  split
  next heq =>
    rw [hlast] at heq
    simp at heq
  next heq =>
    rw [hlast] at heq
    simp at heq
  next h1 h2 => rfl

/-! ### Positional characterisation of the bounded SELECT scan -/

/-- The character just before the current suffix: the last of `u` when
nonempty, else the ambient `prev`. -/
def lastOr (u : List Char) (prev : Option Char) : Option Char :=
  match u.getLast? with
  | some c => some c
  | none => prev

theorem lastOr_nil (prev : Option Char) : lastOr [] prev = prev := rfl

theorem lastOr_cons (c : Char) (u : List Char) (prev : Option Char) :
    lastOr (c :: u) prev = lastOr u (some c) := by
  cases u with
  | nil => rfl
  | cons d u' =>
    unfold lastOr
    rw [List.getLast?_cons_cons]
    cases h : (d :: u').getLast? with
    | none => exact absurd h (by simp)
    | some e => rfl

theorem hasBoundedSelect_iff : ∀ (l : List Char) (prev : Option Char),
    hasBoundedSelect prev l = true ↔
      ∃ u m, l = u ++ m ∧ selectAt (lastOr u prev) m = true := by
  intro l
  induction l with
  | nil =>
    intro prev
    constructor
    · intro h; simp [hasBoundedSelect] at h
    · rintro ⟨u, m, hl, hsel⟩
      have hu : u = [] := by
        cases u with
        | nil => rfl
        | cons a u' => simp at hl
      subst hu
      simp at hl
      subst hl
      simp [selectAt, startsWithCI] at hsel
  | cons c rest ih =>
    intro prev
    rw [hasBoundedSelect]
    constructor
    · intro h
      rcases Bool.or_eq_true_iff.mp h with h1 | h1
      · exact ⟨[], c :: rest, rfl, by rw [lastOr_nil]; exact h1⟩
      · obtain ⟨u, m, hl, hsel⟩ := (ih (some c)).mp h1
        exact ⟨c :: u, m, by simp [hl], by rw [lastOr_cons]; exact hsel⟩
    · rintro ⟨u, m, hl, hsel⟩
      cases u with
      | nil =>
        simp at hl
        subst hl
        rw [lastOr_nil] at hsel
        exact Bool.or_eq_true_iff.mpr (Or.inl hsel)
      | cons a u' =>
        simp at hl
        obtain ⟨hca, hrest⟩ := hl
        subst hca
        apply Bool.or_eq_true_iff.mpr
        right
        rw [lastOr_cons] at hsel
        exact (ih (some c)).mpr ⟨u', m, hrest, hsel⟩

/-! ### Character facts about the keyword letters -/

theorem sel_mem_not_space (d : Char) (hd : d ∈ (['s', 'e', 'l', 'e', 'c', 't'] : List Char)) :
    isSpace d = false := by
  fin_cases hd <;> decide

theorem with_mem_not_space (d : Char) (hd : d ∈ (['w', 'i', 't', 'h'] : List Char)) :
    isSpace d = false := by
  fin_cases hd <;> decide

theorem sel_mem_ne_semi (d : Char) (hd : d ∈ (['s', 'e', 'l', 'e', 'c', 't'] : List Char)) :
    d ≠ ';' := by
  fin_cases hd <;> decide

theorem with_mem_ne_semi (d : Char) (hd : d ∈ (['w', 'i', 't', 'h'] : List Char)) :
    d ≠ ';' := by
  fin_cases hd <;> decide

theorem map_kw_not_space (A kw : List Char) (hm : A.map Char.toLower = kw)
    (hkw : ∀ d ∈ kw, isSpace d = false) : ∀ c ∈ A, isSpace c = false := by
  intro c hc
  have : c.toLower ∈ kw := by
    rw [← hm]
    exact List.mem_map_of_mem _ hc
  exact not_space_of_toLower_eq c c.toLower rfl (hkw _ this)

theorem map_kw_not_semi (A kw : List Char) (hm : A.map Char.toLower = kw)
    (hkw : ∀ d ∈ kw, d ≠ ';') : ';' ∉ A := by
  intro hc
  have : Char.toLower ';' ∈ kw := by
    rw [← hm]
    exact List.mem_map_of_mem _ hc
  exact hkw _ this (by decide)

/-! ### Tracking a leading keyword through strip, split and re-strip -/

theorem keyword_chain (A r kw : List Char)
    (hmap : A.map Char.toLower = kw) (hne : kw ≠ [])
    (hspkw : ∀ d ∈ kw, isSpace d = false) (hsemikw : ∀ d ∈ kw, d ≠ ';') :
    strip (splitFirstSemi (strip (A ++ r))).1 ++ [';'] =
      A ++ (rstrip (splitFirstSemi (rstrip r)).1 ++ [';']) ∧
    (rstrip (splitFirstSemi (rstrip r)).1 = [] ∨
      (rstrip (splitFirstSemi (rstrip r)).1).head? = r.head?) := by
  have hAne : A ≠ [] := by
    intro hA
    subst hA
    simp at hmap
    exact hne hmap
  have hspA : ∀ c ∈ A, isSpace c = false := map_kw_not_space A kw hmap hspkw
  have hsemiA : ';' ∉ A := map_kw_not_semi A kw hmap hsemikw
  obtain ⟨a0, A1, hA0⟩ : ∃ a0 A1, A = a0 :: A1 := by
    cases A with
    | nil => exact absurd rfl hAne
    | cons x xs => exact ⟨x, xs, rfl⟩
  have h0 : A.head? = some a0 := by rw [hA0]; rfl
  have hsp0 : isSpace a0 = false := hspA a0 (by rw [hA0]; simp)
  have hgl := List.getLast?_eq_getLast_of_ne_nil hAne
  set aN := A.getLast hAne with haN
  have hN : A.getLast? = some aN := hgl
  have hspN : isSpace aN = false := hspA aN (List.getLast_mem hAne)
  have step1 : strip (A ++ r) = A ++ rstrip r :=
    strip_keyword_append A r a0 aN h0 hsp0 hN hspN
  have step2 : splitFirstSemi (A ++ rstrip r) =
      (A ++ (splitFirstSemi (rstrip r)).1, (splitFirstSemi (rstrip r)).2) :=
    splitFirstSemi_append_left A (rstrip r) hsemiA
  have step3 : strip (A ++ (splitFirstSemi (rstrip r)).1) =
      A ++ rstrip (splitFirstSemi (rstrip r)).1 :=
    strip_keyword_append A _ a0 aN h0 hsp0 hN hspN
  constructor
  · rw [step1, step2]
    rw [show (A ++ (splitFirstSemi (rstrip r)).1,
        (splitFirstSemi (rstrip r)).2).1 = A ++ (splitFirstSemi (rstrip r)).1 from rfl]
    rw [step3]
    simp
  · by_cases hg : rstrip (splitFirstSemi (rstrip r)).1 = []
    · exact Or.inl hg
    · right
      have hg1ne : (splitFirstSemi (rstrip r)).1 ≠ [] := by
        intro hcon
        rw [hcon] at hg
        exact hg (by simp [rstrip])
      have hrne : rstrip r ≠ [] := by
        intro hcon
        rw [hcon] at hg1ne
        exact hg1ne (by simp [splitFirstSemi])
      obtain ⟨t1, ht1⟩ := rstrip_prefix (splitFirstSemi (rstrip r)).1
      obtain ⟨t2, ht2⟩ := split_fst_prefix (rstrip r)
      obtain ⟨t3, ht3⟩ := rstrip_prefix r
      have e1 : ((splitFirstSemi (rstrip r)).1).head? =
          (rstrip (splitFirstSemi (rstrip r)).1).head? := by
        conv_lhs => rw [ht1]
        exact head?_append_left _ t1 hg
      have e2 : (rstrip r).head? = ((splitFirstSemi (rstrip r)).1).head? := by
        conv_lhs => rw [ht2]
        exact head?_append_left _ t2 hg1ne
      have e3 : r.head? = (rstrip r).head? := by
        conv_lhs => rw [ht3]
        exact head?_append_left _ t3 hrne
      exact e1.symm.trans (e2.symm.trans e3.symm)

/-! ### The stripped text is an infix of the original -/

theorem strip_infix (l : List Char) : ∃ u w, l = u ++ strip l ++ w := by
  obtain ⟨t, ht⟩ := rstrip_prefix (l.dropWhile isSpace)
  refine ⟨l.takeWhile isSpace, t, ?_⟩
  unfold strip
  conv_lhs => rw [← List.takeWhile_append_dropWhile (p := isSpace) (l := l), ht]
  simp

/-! ### Invariants of the fully cleaned text -/

theorem cleaned_nocFree (s : List Char) : nocFree (clean_input_text s) := by
  unfold clean_input_text
  obtain ⟨u, w, hw⟩ := strip_infix
    (collapseWs (stripFenceBackticks (removeLineComments (removeBlockComments s))))
  have h1 := collapse_nocFree _
    (fence_nocFree _ (rlc_nocFree _ (rbc_nocFree s)))
  exact nocFree_infix u _ w (hw ▸ h1)

theorem cleaned_ddFree (s : List Char) : pairFree '-' '-' (clean_input_text s) := by
  unfold clean_input_text
  obtain ⟨u, w, hw⟩ := strip_infix
    (collapseWs (stripFenceBackticks (removeLineComments (removeBlockComments s))))
  have h0 : pairFree '-' '-' (removeLineComments (removeBlockComments s)) :=
    rlc_ddFree _
  have h05 : pairFree '-' '-'
      (stripFenceBackticks (removeLineComments (removeBlockComments s))) :=
    fence_pairFree '-' '-' (by decide) _ h0
  have h1 : pairFree '-' '-'
      (collapseWs (stripFenceBackticks (removeLineComments (removeBlockComments s)))) :=
    collapse_pairFree '-' '-' (by decide) (by decide) _ h05
  exact pairFree_infix '-' '-' u _ w (hw ▸ h1)

theorem cleaned_pairFree_sp (s : List Char) :
    pairFree ' ' ' ' (clean_input_text s) := by
  unfold clean_input_text
  obtain ⟨u, w, hw⟩ := strip_infix
    (collapseWs (stripFenceBackticks (removeLineComments (removeBlockComments s))))
  exact pairFree_infix ' ' ' ' u _ w (hw ▸ collapse_pairFree_sp _)

theorem cleaned_space_mem (s : List Char) :
    ∀ c ∈ clean_input_text s, isSpace c = true → c = ' ' := by
  unfold clean_input_text
  obtain ⟨u, w, hw⟩ := strip_infix
    (collapseWs (stripFenceBackticks (removeLineComments (removeBlockComments s))))
  intro c hc hsp
  exact collapse_space_mem _ c (by rw [hw]; simp [hc]) hsp

/-! ### Chaining `lastOr` across an append -/

theorem lastOr_append (a b : List Char) (prev : Option Char) :
    lastOr (a ++ b) prev = lastOr b (lastOr a prev) := by
  induction a generalizing prev with
  | nil => rw [List.nil_append, lastOr_nil]
  | cons c a' ih =>
    rw [List.cons_append, lastOr_cons, ih, lastOr_cons]

/-! ### Full shape of a successful gateway output -/

theorem output_main (s v : List Char) (h : extract_sql s = .ok v) :
    clean_input_text v = v ∧
    validate_security v = .ok () ∧
    (∃ P, v = P ++ [';'] ∧ ';' ∉ P ∧ strip P = P) ∧
    ((∃ A Z, v = A ++ Z ∧ A.map Char.toLower = ['s', 'e', 'l', 'e', 'c', 't'] ∧
        boundaryAfter Z = true) ∨
     (∃ A Z, v = A ++ Z ∧ A.map Char.toLower = ['w', 'i', 't', 'h'] ∧
        (Z = [';'] ∨ ∃ c5 Zt, Z = c5 :: Zt ∧ isSpace c5 = true))) := by
  obtain ⟨cand, h1, h2, h3⟩ := (extract_sql_ok_iff s v).mp h
  obtain ⟨x, xs, hvx, hx, hvlast⟩ := stmt_shape (clean_input_text s) cand v h1 h2
  obtain ⟨suf, hs, hc⟩ := extract_sql_candidate_ok _ cand h1
  obtain ⟨⟨prev', hm⟩, u0, hu0⟩ := searchFrom_some none _ suf hs
  have h2' := h2
  rw [process_termination_eq] at h2'
  have hv : v = strip (splitFirstSemi cand).1 ++ [';'] := by
    simpa using h2'.symm
  have hPne : ';' ∉ strip (splitFirstSemi cand).1 :=
    not_mem_strip ';' _ (splitFirstSemi_fst_not_mem cand)
  have hPinfix : ∃ U W, clean_input_text s =
      U ++ strip (splitFirstSemi cand).1 ++ W := by
    obtain ⟨u1, w1, hw1⟩ := strip_infix suf
    obtain ⟨t4, ht4⟩ := split_fst_prefix cand
    obtain ⟨u3, w3, hw3⟩ := strip_infix (splitFirstSemi cand).1
    refine ⟨u0 ++ (u1 ++ u3), (w3 ++ t4) ++ w1, ?_⟩
    rw [hu0]
    conv_lhs => rw [hw1]
    rw [← hc]
    conv_lhs => rw [ht4]
    conv_lhs => rw [hw3]
    simp
  obtain ⟨U, W, hUW⟩ := hPinfix
  have hncP : nocFree (strip (splitFirstSemi cand).1) :=
    nocFree_infix U _ W (hUW ▸ cleaned_nocFree s)
  have hddP : pairFree '-' '-' (strip (splitFirstSemi cand).1) :=
    pairFree_infix '-' '-' U _ W (hUW ▸ cleaned_ddFree s)
  have hspP : pairFree ' ' ' ' (strip (splitFirstSemi cand).1) :=
    pairFree_infix ' ' ' ' U _ W (hUW ▸ cleaned_pairFree_sp s)
  have hmemP : ∀ c ∈ strip (splitFirstSemi cand).1, isSpace c = true → c = ' ' := by
    intro c hcP hsp
    exact cleaned_space_mem s c (by rw [hUW]; simp [hcP]) hsp
  have hncv : nocFree v := by
    rw [hv]; exact nocFree_concat ';' _ hncP (by decide)
  have hddv : pairFree '-' '-' v := by
    rw [hv]; exact pairFree_concat '-' '-' ';' _ hddP (by decide)
  have hspv : pairFree ' ' ' ' v := by
    rw [hv]; exact pairFree_concat ' ' ' ' ';' _ hspP (by decide)
  have hmemv : ∀ c ∈ v, isSpace c = true → c = ' ' := by
    rw [hv]
    intro c hcv hsp
    rcases List.mem_append.mp hcv with hcc | hcc
    · exact hmemP c hcc hsp
    · have hcs : c = ';' := by simpa using hcc
      subst hcs
      exact absurd hsp (by decide)
  have hxsp : isSpace x = false := by
    rcases hx with hx | hx
    · exact not_space_of_toLower_eq x 'w' hx (by decide)
    · exact not_space_of_toLower_eq x 's' hx (by decide)
  have hxbt : x ≠ '`' := by
    rcases hx with hx | hx
    · exact ne_of_toLower_ne x 'w' '`' hx (by decide)
    · exact ne_of_toLower_ne x 's' '`' hx (by decide)
  have hP1 : (strip (splitFirstSemi cand).1).dropWhile isSpace =
      strip (splitFirstSemi cand).1 := by
    unfold strip
    rw [dropWhile_rstrip_comm, dropWhile_idem]
  have hstripv : strip v = v := by
    rw [hv, strip_concat_semi, hP1]
  refine ⟨?_, h3, ⟨strip (splitFirstSemi cand).1, hv, hPne, strip_idem _⟩, ?_⟩
  · unfold clean_input_text
    rw [rbc_fix v hncv, rlc_fix v hddv,
      fence_fix v x (by rw [hvx]; rfl) hxbt hvlast,
      collapse_fix v hmemv hspv, hstripv]
  · unfold matchAt at hm
    rcases Bool.or_eq_true_iff.mp hm with hcte | hsel
    · -- the CTE branch matched at the start of the suffix
      unfold cteAt at hcte
      have hsw : startsWithCI ['w', 'i', 't', 'h'] suf = true :=
        (Bool.and_eq_true_iff.mp hcte).1
      have hmt := (Bool.and_eq_true_iff.mp hcte).2
      obtain ⟨A, r, hsuf, hmapA⟩ := (startsWithCI_iff_map _ suf).mp hsw
      have hAlen : A.length = 4 := by
        have hl := congrArg List.length hmapA
        simpa using hl
      have hdrop : suf.drop 4 = r := by
        rw [hsuf, ← hAlen, List.drop_left]
      rw [hdrop] at hmt
      obtain ⟨c5, rest5, hr5, hsp5⟩ :
          ∃ c5 rest5, r = c5 :: rest5 ∧ isSpace c5 = true := by
        cases r with
        | nil => exact absurd hmt (by decide)
        | cons a b => exact ⟨a, b, rfl, (Bool.and_eq_true_iff.mp hmt).1⟩
      have hkc := keyword_chain A r ['w', 'i', 't', 'h'] hmapA (by decide)
        with_mem_not_space with_mem_ne_semi
      have hveq : v = A ++ (rstrip (splitFirstSemi (rstrip r)).1 ++ [';']) := by
        rw [hv, hc, hsuf]
        exact hkc.1
      right
      refine ⟨A, _, hveq, hmapA, ?_⟩
      cases hzz : rstrip (splitFirstSemi (rstrip r)).1 with
      | nil =>
        left
        rfl
      | cons z0 zs =>
        right
        rcases hkc.2 with hznil | hz
        · rw [hzz] at hznil
          exact absurd hznil (List.cons_ne_nil z0 zs)
        · rw [hzz, hr5] at hz
          have hz05 : z0 = c5 := by simpa using hz
          refine ⟨c5, zs ++ [';'], ?_, hsp5⟩
          rw [hz05]
          rfl
    · -- the bare SELECT branch matched at the start of the suffix
      unfold selectAt at hsel
      have hsw : startsWithCI ['s', 'e', 'l', 'e', 'c', 't'] suf = true :=
        (Bool.and_eq_true_iff.mp (Bool.and_eq_true_iff.mp hsel).1).2
      have hba : boundaryAfter (suf.drop 6) = true := (Bool.and_eq_true_iff.mp hsel).2
      obtain ⟨A, r, hsuf, hmapA⟩ := (startsWithCI_iff_map _ suf).mp hsw
      have hAlen : A.length = 6 := by
        have hl := congrArg List.length hmapA
        simpa using hl
      have hdrop : suf.drop 6 = r := by
        rw [hsuf, ← hAlen, List.drop_left]
      rw [hdrop] at hba
      have hkc := keyword_chain A r ['s', 'e', 'l', 'e', 'c', 't'] hmapA (by decide)
        sel_mem_not_space sel_mem_ne_semi
      have hveq : v = A ++ (rstrip (splitFirstSemi (rstrip r)).1 ++ [';']) := by
        rw [hv, hc, hsuf]
        exact hkc.1
      left
      refine ⟨A, _, hveq, hmapA, ?_⟩
      cases hzz : rstrip (splitFirstSemi (rstrip r)).1 with
      | nil =>
        decide
      | cons z0 zs =>
        rcases hkc.2 with hznil | hz
        · rw [hzz] at hznil
          exact absurd hznil (List.cons_ne_nil z0 zs)
        · rw [hzz] at hz
          have hzr : r.head? = some z0 := hz.symm
          obtain ⟨rt, hrt⟩ : ∃ rt, r = z0 :: rt := by
            cases r with
            | nil => simp at hzr
            | cons a b =>
              have haz : a = z0 := by simpa using hzr
              exact ⟨b, by rw [haz]⟩
          rw [hrt] at hba
          rw [List.cons_append]
          exact hba

/-! ### Re-running the search on a text matching at position 0 -/

theorem searchFrom_head_match (v : List Char) (hne : v ≠ [])
    (hm : matchAt none v = true) : searchFrom none v = some v := by
  cases v with
  | nil => exact absurd rfl hne
  | cons c rest => rw [searchFrom, if_pos hm]

theorem strip_fix_of_clean_fix (v : List Char) (h : clean_input_text v = v) :
    strip v = v := by
  have h0 : strip (collapseWs (stripFenceBackticks (removeLineComments
      (removeBlockComments v)))) = v := h
  rw [← h0, strip_idem]

/-! ### Backtick validation, given a passing blocklist scan -/

theorem validate_backtick_iff (stmt : List Char)
    (hf : firstIllegalPattern (remove_quoted_content stmt) = none) :
    (validate_security stmt = .error .invalidBacktickEdge ∨
      validate_security stmt = .error .invalidBacktickBody) ↔
      (stmt.head? = some '`' ∨ stmt.getLast? = some '`' ∨
        has_unquoted_backtick stmt = true) := by
  unfold validate_security
  simp only [hf]
  by_cases he1 : stmt.head? = some '`' <;> by_cases he2 : stmt.getLast? = some '`' <;>
    by_cases hb : has_unquoted_backtick stmt = true <;> simp [he1, he2, hb]

end SqlGateway

namespace SqlGateway

attribute [simp] isSpace findClose removeBlockComments skipToEol removeLineComments
  dropTrailingBackticks stripFenceBackticks collapseWs rstrip strip clean_input_text
  isWordChar startsWithCI boundaryAfter prevBoundary selectAt hasBoundedSelect cteAt
  matchAt searchFrom extract_sql_candidate splitFirstSemi semicolonMatch
  clauseAlternatives wsPlusThen clauseAltAt clauseAt terminationSearch terminationMatch
  process_termination_pattern semicolonResolve findQuote remove_quoted_content
  has_unquoted_backtick ILLEGAL_OPERATION_PATTERNS illegalMatchAt searchIllegal
  firstIllegalPattern validate_security extract_sql NA containsCI
  specWithArbitraryReturning

/-! ## Claim theorems -/

/-- C2 (counterexample): on `"INSERT INTO employees VALUES (1, 'CEO')"`,
`extract_sql` fails with `NoStatementFound` («No valid SQL statement
found») — an error kind different from the `BlockedOperation` the claim
asserts, because no `SELECT`/`WITH…SELECT` candidate exists and the
extractor runs before the blocklist scan. -/
theorem C2_counterexample :
    extract_sql "INSERT INTO employees VALUES (1, 'CEO')".data =
      .error ⟨.noStatementFound, "INSERT INTO employees VALUES (1, 'CEO')".data,
        "INSERT INTO employees VALUES (1, 'CEO')".data, NA⟩ ∧
    ErrKind.noStatementFound ≠ ErrKind.blockedOperation "INSERT\\s+INTO" := by
  constructor
  · simp
  · simp

/-- C2 (amended): on `"INSERT INTO employees VALUES (1, 'CEO')"`,
`extract_sql` fails — with `NoStatementFound` (the diagnostic context
echoes the raw input, so the message still contains «INSERT INTO»), not
with `BlockedOperation`. -/
theorem C2_amended_fails_noStatementFound :
    extract_sql "INSERT INTO employees VALUES (1, 'CEO')".data =
      .error ⟨.noStatementFound, "INSERT INTO employees VALUES (1, 'CEO')".data,
        "INSERT INTO employees VALUES (1, 'CEO')".data, NA⟩ := by
  simp

/-- C4: every successful `extract_sql` result ends in exactly one `;` —
its last character is `;`, the character before it is not `;` — and the
security validator accepts it unchanged. -/
theorem C4_single_terminator (s v : List Char) (h : extract_sql s = .ok v) :
    v.getLast? = some ';' ∧ v.dropLast.getLast? ≠ some ';' ∧
      validate_security v = .ok () := by
  obtain ⟨cand, h1, h2, h3⟩ := (extract_sql_ok_iff s v).mp h
  rw [process_termination_eq] at h2
  have hv : v = strip (splitFirstSemi cand).1 ++ [';'] := by simpa using h2.symm
  have hns : ';' ∉ strip (splitFirstSemi cand).1 :=
    not_mem_strip ';' _ (splitFirstSemi_fst_not_mem cand)
  refine ⟨?_, ?_, h3⟩
  · rw [hv]
    exact List.getLast?_concat _
  · rw [hv, List.dropLast_concat]
    exact getLast?_ne_of_not_mem ';' _ hns

/-- C4 witness at the concrete input `"SELECT 1"`. -/
theorem C4_witness :
    "SELECT 1;".data.getLast? = some ';' ∧
      "SELECT 1;".data.dropLast.getLast? ≠ some ';' ∧
      validate_security "SELECT 1;".data = .ok () :=
  C4_single_terminator "SELECT 1".data "SELECT 1;".data (by simp)

/-- C6: the semicolon termination pattern matches every candidate (its
end-of-string alternative is total), so `_process_termination_pattern`
always returns through the semicolon rule — the clause-boundary rule is
never consulted — and no `extract_sql` failure ever carries
`NoSelectStatement`. -/
theorem C6_semicolon_rule_total :
    (∀ cand : List Char, semicolonMatch cand ≠ none) ∧
    (∀ cand : List Char, process_termination_pattern cand = .ok (semicolonResolve cand)) ∧
    (∀ (s : List Char) (e : GatewayError), extract_sql s = .error e →
      e.kind ≠ .noSelectStatement) := by
  refine ⟨fun cand => by simp only [semicolonMatch]; exact Option.some_ne_none _,
    process_eq_resolve, fun s e h => ?_⟩
  rcases extract_sql_error_cases s e h with hk | ⟨p, hk⟩ | hk <;> rw [hk] <;> simp

/-- C6 witness: concrete instances of the three conjuncts. -/
theorem C6_witness :
    semicolonMatch [] ≠ none ∧
      process_termination_pattern ['S'] = .ok (semicolonResolve ['S']) ∧
      (GatewayError.mk .noStatementFound "no sql here".data "no sql here".data NA).kind ≠
        ErrKind.noSelectStatement :=
  ⟨C6_semicolon_rule_total.1 [], C6_semicolon_rule_total.2.1 ['S'],
    C6_semicolon_rule_total.2.2 "no sql here".data
      ⟨.noStatementFound, "no sql here".data, "no sql here".data, NA⟩ (by simp)⟩

/-- C7: when the extracted candidate contains no semicolon and the
terminated statement passes validation, the output is the candidate with
exactly one `;` appended; concretely, `"SELECT 1"` yields `"SELECT 1;"`. -/
theorem C7_append_one_semicolon :
    (∀ s cand : List Char, extract_sql_candidate (clean_input_text s) = .ok cand →
      ';' ∉ cand → validate_security (cand ++ [';']) = .ok () →
      extract_sql s = .ok (cand ++ [';'])) ∧
    extract_sql "SELECT 1".data = .ok "SELECT 1;".data := by
  constructor
  · intro s cand h1 hsemi h3
    apply (extract_sql_ok_iff s (cand ++ [';'])).mpr
    refine ⟨cand, h1, ?_, h3⟩
    rw [process_termination_eq, splitFirstSemi_of_not_mem cand hsemi]
    rw [show ((cand, ([] : List Char)).1) = cand from rfl]
    rw [candidate_stripped _ cand h1]
  · simp

/-- C7 witness at the concrete input `"SELECT 1"` (candidate `"SELECT 1"`,
no semicolon, validation passes). -/
theorem C7_witness : extract_sql "SELECT 1".data = .ok ("SELECT 1".data ++ [';']) :=
  C7_append_one_semicolon.1 "SELECT 1".data "SELECT 1".data (by simp) (by decide)
    (by simp)

/-- C8: termination resolution is not quote-aware — every candidate is cut
at its first `;` (then stripped and re-terminated), a `;` inside a quoted
literal included; concretely `"SELECT ';' AS x FROM t"` yields the
mid-literal truncation `"SELECT ';"`. -/
theorem C8_cut_inside_quotes :
    (∀ cand : List Char,
      process_termination_pattern cand = .ok (strip (splitFirstSemi cand).1 ++ [';'])) ∧
    extract_sql "SELECT ';' AS x FROM t".data = .ok "SELECT ';".data := by
  exact ⟨process_termination_eq, by simp⟩

/-- C9: every statement handed to `_validate_security` by the pipeline
starts with the first letter of `WITH` or `SELECT` (either case) and ends
with `;`, so its start/end-backtick check never fires, and no
`extract_sql` failure carries the edge-backtick error. -/
theorem C9_edge_backtick_unreachable :
    (∀ s cand stmt : List Char, extract_sql_candidate (clean_input_text s) = .ok cand →
      process_termination_pattern cand = .ok stmt →
      (∃ x xs, stmt = x :: xs ∧ (x.toLower = 'w' ∨ x.toLower = 's')) ∧
        stmt.getLast? = some ';' ∧ stmt.head? ≠ some '`' ∧ stmt.getLast? ≠ some '`') ∧
    (∀ (s : List Char) (e : GatewayError), extract_sql s = .error e →
      e.kind ≠ .invalidBacktickEdge) := by
  constructor
  · intro s cand stmt h1 h2
    obtain ⟨x, xs, hstmt, hx, hlast⟩ := stmt_shape _ cand stmt h1 h2
    refine ⟨⟨x, xs, hstmt, hx⟩, hlast, ?_, ?_⟩
    · rw [hstmt]
      intro hcon
      have hxeq : x = '`' := Option.some.inj (by simpa using hcon)
      rcases hx with hx | hx
      · exact ne_of_toLower_ne x 'w' '`' hx (by decide) hxeq
      · exact ne_of_toLower_ne x 's' '`' hx (by decide) hxeq
    · rw [hlast]
      simp
  · intro s e h
    rcases extract_sql_error_cases s e h with hk | ⟨p, hk⟩ | hk <;> rw [hk] <;> simp

/-- C9 witness: the concrete pipeline run on `"SELECT 1"` and a concrete
failing run (`"SELECT `id`, `name` FROM `users`"`, which fails with the
body-scan backtick error, not the edge one). -/
theorem C9_witness :
    ((∃ x xs, "SELECT 1;".data = x :: xs ∧ (x.toLower = 'w' ∨ x.toLower = 's')) ∧
      "SELECT 1;".data.getLast? = some ';' ∧ "SELECT 1;".data.head? ≠ some '`' ∧
      "SELECT 1;".data.getLast? ≠ some '`') ∧
    (GatewayError.mk .invalidBacktickBody "SELECT `id`, `name` FROM `users`".data
        "SELECT `id`, `name` FROM `users".data
        "SELECT `id`, `name` FROM `users".data).kind ≠ ErrKind.invalidBacktickEdge :=
  ⟨C9_edge_backtick_unreachable.1 "SELECT 1".data "SELECT 1".data "SELECT 1;".data
      (by simp) (by simp),
    C9_edge_backtick_unreachable.2 "SELECT `id`, `name` FROM `users`".data
      ⟨.invalidBacktickBody, "SELECT `id`, `name` FROM `users`".data,
        "SELECT `id`, `name` FROM `users".data,
        "SELECT `id`, `name` FROM `users".data⟩ (by simp)⟩

/-- C10: candidate extraction needs no word boundary before the CTE
keyword — on `"FORTHWITH SELECT 1"` the candidate starts at the `WITH`
embedded in `FORTHWITH`, and `extract_sql` returns `"WITH SELECT 1;"`. -/
theorem C10_no_boundary_before_with :
    extract_sql "FORTHWITH SELECT 1".data = .ok "WITH SELECT 1;".data := by
  simp

/-- C3 (counterexample): the gateway is not idempotent on its own output —
`extract_sql "WITH a; SELECT 1"` succeeds with `"WITH a;"`, but re-running
it on `"WITH a;"` fails with `NoStatementFound` (the cut dropped the only
`SELECT`). -/
theorem C3_counterexample :
    extract_sql "WITH a; SELECT 1".data = .ok "WITH a;".data ∧
    extract_sql "WITH a;".data =
      .error ⟨.noStatementFound, "WITH a;".data, "WITH a;".data, NA⟩ := by
  constructor
  · simp
  · simp

/-- C1 (counterexample): the claim set reads `WITH ... RETURNING` with
arbitrary text in between; the statement produced from
`"WITH t SELECT x RETURNING"` contains that pattern in its quote-stripped
text, yet `extract_sql` succeeds and returns a statement — the code only
blocks `WITH` and `RETURNING` separated by whitespace (`WITH\s+RETURNING`). -/
theorem C1_counterexample :
    specWithArbitraryReturning
        (remove_quoted_content "WITH t SELECT x RETURNING;".data) = true ∧
    extract_sql "WITH t SELECT x RETURNING".data =
      .ok "WITH t SELECT x RETURNING;".data := by
  constructor
  · simp
  · simp

/-- C1 (amended): whenever the quote-stripped statement matches one of the
fourteen blocklist regexes of `ILLEGAL_OPERATION_PATTERNS` (case-insensitive
substring matching; each keyword must be followed by whitespace, with
`WITH\s+RETURNING` allowing only whitespace between its two keywords),
`extract_sql` fails with `BlockedOperation` carrying the first matching
pattern's source text, and no statement string is returned. -/
theorem C1_blocklist_blocks (s cand stmt : List Char) (p : String)
    (h1 : extract_sql_candidate (clean_input_text s) = .ok cand)
    (h2 : process_termination_pattern cand = .ok stmt)
    (h3 : firstIllegalPattern (remove_quoted_content stmt) = some p) :
    extract_sql s = .error ⟨.blockedOperation p, s, clean_input_text s, cand⟩ := by
  unfold extract_sql
  simp only [h1, h2]
  unfold validate_security
  simp only [h3]

/-- C1 witness: `"SELECT * INTO backup FROM t"` is blocked with the
`INTO\s+` pattern. -/
theorem C1_witness :
    extract_sql "SELECT * INTO backup FROM t".data =
      .error ⟨.blockedOperation "INTO\\s+", "SELECT * INTO backup FROM t".data,
        "SELECT * INTO backup FROM t".data, "SELECT * INTO backup FROM t".data⟩ := by
  have h := C1_blocklist_blocks "SELECT * INTO backup FROM t".data
    "SELECT * INTO backup FROM t".data "SELECT * INTO backup FROM t;".data
    "INTO\\s+" (by simp) (by simp) (by simp)
  simpa using h

/-- C5: once the blocklist scan passes, validation fails with an
`InvalidBacktick` error exactly when the statement starts or ends with a
backtick or its quote-opaque scan finds a bare backtick; backticks inside
`'...'` literals are preserved (`"SELECT '`test`' AS marker FROM table"`
succeeds) while bare ones are rejected
(`"SELECT `id`, `name` FROM `users`"` fails). -/
theorem C5_invalid_backtick_iff :
    (∀ stmt : List Char, firstIllegalPattern (remove_quoted_content stmt) = none →
      ((validate_security stmt = .error .invalidBacktickEdge ∨
        validate_security stmt = .error .invalidBacktickBody) ↔
        (stmt.head? = some '`' ∨ stmt.getLast? = some '`' ∨
          has_unquoted_backtick stmt = true))) ∧
    extract_sql "SELECT '`test`' AS marker FROM table".data =
      .ok "SELECT '`test`' AS marker FROM table;".data ∧
    extract_sql "SELECT `id`, `name` FROM `users`".data =
      .error ⟨.invalidBacktickBody, "SELECT `id`, `name` FROM `users`".data,
        "SELECT `id`, `name` FROM `users".data,
        "SELECT `id`, `name` FROM `users".data⟩ := by
  refine ⟨validate_backtick_iff, by simp, by simp⟩

/-- C3 (amended): the gateway is idempotent on every successful output
that still contains a word-bounded `SELECT` keyword — whenever
`extract_sql s` succeeds with `v` and `hasBoundedSelect none v` holds
(the embedding of `\bSELECT\b` matching somewhere in `v`), re-running
`extract_sql` on `v` succeeds and returns `v` unchanged.  The
counterexample above shows the hypothesis is necessary: a CTE output cut
at a `;` before its `SELECT` fails on re-entry. -/
theorem C3_idempotent_with_select (s v : List Char)
    (h : extract_sql s = .ok v)
    (hbs : hasBoundedSelect none v = true) :
    extract_sql v = .ok v := by
  obtain ⟨hclean, hval, ⟨P, hPv, hPne, hPstrip⟩, hcase⟩ := output_main s v h
  have hstripv : strip v = v := strip_fix_of_clean_fix v hclean
  have hmatch : matchAt none v = true := by
    rcases hcase with ⟨A, Z, hveq, hmapA, hbZ⟩ | ⟨A, Z, hveq, hmapA, hZ⟩
    · have hAlen : A.length = 6 := by
        have hl := congrArg List.length hmapA
        simpa using hl
      have hsw : startsWithCI ['s', 'e', 'l', 'e', 'c', 't'] v = true :=
        (startsWithCI_iff_map _ v).mpr ⟨A, Z, hveq, hmapA⟩
      have hd6 : v.drop 6 = Z := by
        rw [hveq, ← hAlen, List.drop_left]
      unfold matchAt
      apply Bool.or_eq_true_iff.mpr
      right
      unfold selectAt
      rw [hd6, hsw, hbZ]
      rfl
    · obtain ⟨u, m, hvum, hselm⟩ := (hasBoundedSelect_iff v none).mp hbs
      have hselm' := hselm
      unfold selectAt at hselm'
      have hswm : startsWithCI ['s', 'e', 'l', 'e', 'c', 't'] m = true :=
        (Bool.and_eq_true_iff.mp (Bool.and_eq_true_iff.mp hselm').1).2
      obtain ⟨m0, m', hm0, hml, -⟩ :=
        startsWithCI_cons 's' ['e', 'l', 'e', 'c', 't'] m hswm
      rcases hZ with hZsemi | ⟨c5, Zt, hZc, hsp5⟩
      · exfalso
        have hm0v : m0 ∈ v := by
          rw [hvum, hm0]
          simp
        rw [hveq, hZsemi] at hm0v
        rcases List.mem_append.mp hm0v with hin | hin
        · have hmem : m0.toLower ∈ (['w', 'i', 't', 'h'] : List Char) := by
            rw [← hmapA]
            exact List.mem_map_of_mem _ hin
          rw [hml] at hmem
          exact absurd hmem (by decide)
        · have hsemi : m0 = ';' := by simpa using hin
          rw [hsemi] at hml
          exact absurd hml (by decide)
      · have heq : A ++ Z = u ++ m := by
          rw [← hveq]
          exact hvum
        have hbsZt : hasBoundedSelect (some c5) Zt = true := by
          rcases List.append_eq_append_iff.mp heq with ⟨a', hu, hZm⟩ | ⟨c', hA, hmz⟩
          · cases a' with
            | nil =>
              exfalso
              rw [hZc, hm0] at hZm
              simp at hZm
              have hc5l : c5.toLower = 's' := by rw [hZm.1]; exact hml
              have hf : isSpace c5 = false :=
                not_space_of_toLower_eq c5 's' hc5l (by decide)
              rw [hsp5] at hf
              exact Bool.noConfusion hf
            | cons e a'' =>
              rw [hZc] at hZm
              have hZm' : c5 :: Zt = e :: (a'' ++ m) := by simpa using hZm
              injection hZm' with hc5e hZt
              apply (hasBoundedSelect_iff Zt (some c5)).mpr
              refine ⟨a'', m, hZt, ?_⟩
              have hlast : lastOr u none = lastOr a'' (some c5) := by
                rw [hu, ← hc5e, lastOr_append, lastOr_cons]
              rw [← hlast]
              exact hselm
          · cases c' with
            | nil =>
              exfalso
              rw [hZc, hm0] at hmz
              simp at hmz
              have hc5l : c5.toLower = 's' := by rw [← hmz.1]; exact hml
              have hf : isSpace c5 = false :=
                not_space_of_toLower_eq c5 's' hc5l (by decide)
              rw [hsp5] at hf
              exact Bool.noConfusion hf
            | cons d c'' =>
              exfalso
              rw [hm0] at hmz
              have hmz' : m0 :: m' = d :: (c'' ++ Z) := by simpa using hmz
              injection hmz' with h1 h2
              have hdA : d ∈ A := by rw [hA]; simp
              have hmem : d.toLower ∈ (['w', 'i', 't', 'h'] : List Char) := by
                rw [← hmapA]
                exact List.mem_map_of_mem _ hdA
              rw [← h1, hml] at hmem
              exact absurd hmem (by decide)
        have hAlen : A.length = 4 := by
          have hl := congrArg List.length hmapA
          simpa using hl
        have hsw : startsWithCI ['w', 'i', 't', 'h'] v = true :=
          (startsWithCI_iff_map _ v).mpr ⟨A, Z, hveq, hmapA⟩
        have hd4 : v.drop 4 = Z := by
          rw [hveq, ← hAlen, List.drop_left]
        unfold matchAt
        apply Bool.or_eq_true_iff.mpr
        left
        unfold cteAt
        rw [hsw, hd4, hZc]
        show (true && (isSpace c5 && hasBoundedSelect (some c5) Zt)) = true
        rw [hsp5, hbsZt]
        rfl
  have hne : v ≠ [] := by
    rw [hPv]
    simp
  have hsearch : searchFrom none v = some v := searchFrom_head_match v hne hmatch
  have hcand : extract_sql_candidate v = .ok v := by
    unfold extract_sql_candidate
    rw [hsearch]
    show Except.ok (strip v) = Except.ok v
    rw [hstripv]
  have hproc : process_termination_pattern v = .ok v := by
    rw [process_termination_eq]
    conv_lhs => rw [hPv]
    rw [splitFirstSemi_append_left P [';'] hPne]
    show Except.ok (strip (P ++ []) ++ [';']) = Except.ok v
    rw [List.append_nil, hPstrip, ← hPv]
  exact (extract_sql_ok_iff v v).mpr ⟨v, by rw [hclean]; exact hcand, hproc, hval⟩

/-- C3 witness: the amended idempotence applied at the concrete run
`"SELECT 1" ↦ "SELECT 1;"`, whose output contains a bounded `SELECT`. -/
theorem C3_witness :
    extract_sql "SELECT 1".data = .ok "SELECT 1;".data ∧
    hasBoundedSelect none "SELECT 1;".data = true ∧
    extract_sql "SELECT 1;".data = .ok "SELECT 1;".data :=
  ⟨by simp, by decide,
    C3_idempotent_with_select "SELECT 1".data "SELECT 1;".data (by simp) (by decide)⟩

/-- C5 witness: the validation equivalence applied to the concrete
statement `"SELECT `x;"`, whose blocklist scan passes. -/
theorem C5_witness :
    (validate_security "SELECT `x;".data = .error .invalidBacktickEdge ∨
      validate_security "SELECT `x;".data = .error .invalidBacktickBody) ↔
      ("SELECT `x;".data.head? = some '`' ∨ "SELECT `x;".data.getLast? = some '`' ∨
        has_unquoted_backtick "SELECT `x;".data = true) :=
  C5_invalid_backtick_iff.1 "SELECT `x;".data (by simp)

end SqlGateway
